import Mathlib

/-!
Shallow embedding of the bifrost package manager core (version parsing and
comparison, constraint parsing and satisfaction, dependency resolution,
installation order, installer and uninstaller decision logic, and tar
extraction path computation), together with theorems settling the claims
about its specification.
-/

namespace Bifrost

/-! ## Character and string helpers (Go strings / strconv primitives) -/

/-- Whitespace characters trimmed by strings.TrimSpace (ASCII part of unicode.IsSpace). -/
def isSpaceChar (c : Char) : Bool :=
  c = ' ' || c = '\t' || c = '\n' || c = '\r' || c = '\x0b' || c = '\x0c'

/-- strings.TrimSpace on a character list. -/
def trimSpace (cs : List Char) : List Char :=
  ((cs.dropWhile isSpaceChar).reverse.dropWhile isSpaceChar).reverse

/-- strings.Split on a single separator character: splits into the (always
nonempty) list of separator-free groups. -/
def splitOnChar (sep : Char) : List Char → List (List Char)
  | [] => [[]]
  | c :: rest =>
    if c = sep then [] :: splitOnChar sep rest
    else
      match splitOnChar sep rest with
      | [] => [[c]]
      | g :: gs => (c :: g) :: gs

/-- strconv.Atoi on an all-digit string: the decimal value. -/
def digitsVal (cs : List Char) : Nat :=
  cs.foldl (fun n c => n * 10 + (c.toNat - 48)) 0

/-- A nonempty run of ASCII digits (one `\d+` regex group). -/
def allDigits (cs : List Char) : Bool :=
  !cs.isEmpty && cs.all Char.isDigit

/-- strings.HasPrefix: first argument is the pattern. -/
def hasPre : List Char → List Char → Bool
  | [], _ => true
  | _ :: _, [] => false
  | p :: ps, c :: cs => p = c && hasPre ps cs

/-! ## Version (internal/version: Parse, Compare, String) -/

/-- A three-component version; fields are Go ints. -/
structure Version where
  major : Int
  minor : Int
  patch : Int
deriving DecidableEq

/-- The body of the regex match: exactly three dot-separated digit groups
(`(\d+)\.(\d+)\.(\d+)$`). -/
def parseDotted (cs : List Char) : Option Version :=
  match splitOnChar '.' cs with
  | [a, b, c] =>
    if allDigits a && allDigits b && allDigits c then
      some ⟨(digitsVal a : Nat), (digitsVal b : Nat), (digitsVal c : Nat)⟩
    else none
  | _ => none

/-- The full regex `^v?(\d+)\.(\d+)\.(\d+)$`: an optional leading literal
character v, then three dot-separated digit groups. -/
def parseVersionChars : List Char → Option Version
  | [] => parseDotted []
  | c :: rest => if c = 'v' then parseDotted rest else parseDotted (c :: rest)

/-- version.Parse. -/
def Parse (s : String) : Option Version :=
  parseVersionChars s.data

/-- Version.Compare: the difference of the first differing component. -/
def Version.Compare (v other : Version) : Int :=
  if v.major ≠ other.major then v.major - other.major
  else if v.minor ≠ other.minor then v.minor - other.minor
  else v.patch - other.patch

/-- Decimal digits of a natural number. -/
def natChars (n : Nat) : List Char := Nat.toDigits 10 n

/-- Decimal rendering of a Go int. -/
def intChars (i : Int) : List Char :=
  if i < 0 then '-' :: natChars (-i).toNat else natChars i.toNat

/-- Version.String: `major.minor.patch`. -/
def verString (v : Version) : String :=
  String.mk (intChars v.major ++ '.' :: intChars v.minor ++ '.' :: intChars v.patch)

/-! ## Constraint (internal/version: ExactConstraint, RangeConstraint, ParseConstraint) -/

/-- The closed union of constraint variants (ExactConstraint, RangeConstraint). -/
inductive Constraint where
  | exact (version : Version)
  | range (min max : Option Version) (minInclusive maxInclusive : Bool)
deriving DecidableEq

/-- The min-bound test inside RangeConstraint.Satisfies. -/
def minBoundOk : Option Version → Bool → Version → Bool
  | none, _, _ => true
  | some m, inc, v =>
    let cmp := v.Compare m
    if cmp < 0 then false
    else if cmp = 0 ∧ inc = false then false
    else true

/-- The max-bound test inside RangeConstraint.Satisfies. -/
def maxBoundOk : Option Version → Bool → Version → Bool
  | none, _, _ => true
  | some m, inc, v =>
    let cmp := v.Compare m
    if cmp > 0 then false
    else if cmp = 0 ∧ inc = false then false
    else true

/-- Constraint.Satisfies, dispatching over the two variants. -/
def Constraint.Satisfies : Constraint → Version → Bool
  | .exact e, v => e.Compare v == 0
  | .range mn mx mni mxi, v => minBoundOk mn mni v && maxBoundOk mx mxi v

/-- The RangeConstraint being accumulated while parsing a comma-separated
range; Go zero value: no bounds, both inclusivities false. -/
structure RangeAcc where
  min : Option Version
  max : Option Version
  minInclusive : Bool
  maxInclusive : Bool
deriving DecidableEq

/-- The Go zero value of RangeConstraint. -/
def emptyRangeAcc : RangeAcc := ⟨none, none, false, false⟩

/-- One iteration of the clause loop in the comma branch of ParseConstraint:
a clause starting with a comparison operator updates the matching bound, any
other clause is skipped. -/
def applyClause (acc : RangeAcc) (clause : List Char) : Option RangeAcc :=
  let part := trimSpace clause
  if hasPre ['>', '='] part then
    (parseVersionChars (part.drop 2)).map fun v =>
      { acc with min := some v, minInclusive := true }
  else if hasPre ['>'] part then
    (parseVersionChars (part.drop 1)).map fun v =>
      { acc with min := some v, minInclusive := false }
  else if hasPre ['<', '='] part then
    (parseVersionChars (part.drop 2)).map fun v =>
      { acc with max := some v, maxInclusive := true }
  else if hasPre ['<'] part then
    (parseVersionChars (part.drop 1)).map fun v =>
      { acc with max := some v, maxInclusive := false }
  else
    some acc

/-- ParseConstraint on the already-trimmed character list: caret, tilde,
comma-separated two-clause range, single leading >=, else exact version. -/
def constraintOfChars (cs : List Char) : Option Constraint :=
  if hasPre ['^'] cs then
    (parseVersionChars (cs.drop 1)).map fun v =>
      .range (some v) (some ⟨v.major + 1, 0, 0⟩) true false
  else if hasPre ['~'] cs then
    (parseVersionChars (cs.drop 1)).map fun v =>
      .range (some v) (some ⟨v.major, v.minor + 1, 0⟩) true false
  else if cs.contains ',' then
    match splitOnChar ',' cs with
    | [p1, p2] =>
      match applyClause emptyRangeAcc p1 with
      | none => none
      | some acc1 =>
        match applyClause acc1 p2 with
        | none => none
        | some acc2 => some (.range acc2.min acc2.max acc2.minInclusive acc2.maxInclusive)
    | _ => none
  else if hasPre ['>', '='] cs then
    (parseVersionChars (cs.drop 2)).map fun v => .range (some v) none true false
  else
    (parseVersionChars cs).map .exact

/-- version.ParseConstraint. -/
def ParseConstraint (s : String) : Option Constraint :=
  constraintOfChars (trimSpace s.data)

/-! ## Resolver (internal/resolver inside install.go: Package, Resolver, Resolve,
resolvePackage, Resolution, GetResolutionOrder) -/

/-- resolver.Package: name, version, and the dependency map (name to
constraint) as an association list. -/
structure Package where
  name : String
  version : Version
  deps : List (String × Constraint)
deriving DecidableEq

/-- Go map lookup on an association list (first binding wins). -/
def alookup {α : Type} : List (String × α) → String → Option α
  | [], _ => none
  | (k, v) :: rest, key => if k = key then some v else alookup rest key

/-- Resolution errors produced by the resolver. -/
inductive ResolveErr where
  | circular (stack : List String)
  | versionConflict (dep requiringPkg : String) (c : Constraint) (existing : Version)
  | packageNotFound (name : String)
  | noCompatibleVersion (name : String) (c : Constraint)
  | outOfFuel
deriving DecidableEq

/-- The resolver pool r.packages[name]: all variants added for that name, in
insertion order. -/
def poolCandidates (pool : List Package) (name : String) : List Package :=
  pool.filter (fun p => p.name = name)

/-- The descending order used by sort.Slice: a package comes no later than
another when its version is not smaller. -/
def verGE (p q : Package) : Prop := q.version.Compare p.version ≤ 0

instance : DecidableRel verGE := fun p q => by
  unfold verGE; infer_instance

/-- The candidate-selection step of resolvePackage: gather the variants for
the name, fail if none, sort descending by version, and pick the first whose
version satisfies the constraint. -/
def selectCandidate (pool : List Package) (depName : String) (c : Constraint) :
    Except ResolveErr Package :=
  if (poolCandidates pool depName).isEmpty then .error (.packageNotFound depName)
  else
    match (List.insertionSort verGE (poolCandidates pool depName)).find?
        (fun p => c.Satisfies p.version) with
    | some p => .ok p
    | none => .error (.noCompatibleVersion depName c)

/-- The resolved map (name to selected package) of resolvePackage. -/
def Resolved := List (String × Package)

/-- One iteration of the dependency loop body of resolvePackage: if the name
is already resolved, its selection must satisfy the constraint or resolution
fails with a version conflict; otherwise a candidate is selected, recorded,
and resolved recursively (recurse is the recursive resolvePackage call). -/
def resolveStep (pool : List Package)
    (recurse : Package → List (String × Package) → List String → Except ResolveErr (List (String × Package)))
    (pkgName : String) (stack : List String)
    (resolved : List (String × Package)) (dep : String × Constraint) :
    Except ResolveErr (List (String × Package)) :=
  match alookup resolved dep.1 with
  | some existing =>
    if dep.2.Satisfies existing.version then .ok resolved
    else .error (.versionConflict dep.1 pkgName dep.2 existing.version)
  | none =>
    match selectCandidate pool dep.1 dep.2 with
    | .error e => .error e
    | .ok selected => recurse selected ((dep.1, selected) :: resolved) stack

/-- resolvePackage: cycle check against the recursion stack, then the
dependency loop; fuel bounds the recursion depth (in the Go code the depth is
bounded by the number of distinct package names on the growing stack). -/
def resolvePackage (pool : List Package) :
    Nat → Package → List (String × Package) → List String → Except ResolveErr (List (String × Package))
  | 0, _, _, _ => .error .outOfFuel
  | fuel + 1, pkg, resolved, stack =>
    if stack.contains pkg.name then .error (.circular (stack ++ [pkg.name]))
    else
      pkg.deps.foldlM
        (resolveStep pool (fun p r s => resolvePackage pool fuel p r s) pkg.name (stack ++ [pkg.name]))
        resolved

/-- manifest.Manifest restricted to what Resolve reads: the package name and
the dependency map of constraint strings. -/
structure Manifest where
  name : String
  dependencies : List (String × String)

/-- Errors surfaced by Resolve. -/
inductive TopErr where
  | invalidConstraint (name : String)
  | resolution (e : ResolveErr)
deriving DecidableEq

/-- resolver.Resolution. -/
structure Resolution where
  packages : List (String × Package)

/-- Parsing the root manifest dependency constraints inside Resolve. -/
def parseManifestDeps : List (String × String) → Except TopErr (List (String × Constraint))
  | [] => .ok []
  | (n, cstr) :: rest =>
    match ParseConstraint cstr with
    | none => .error (.invalidConstraint n)
    | some c =>
      match parseManifestDeps rest with
      | .error e => .error e
      | .ok ds => .ok ((n, c) :: ds)

/-- Removal of the root package from the resolved map (delete(resolved, root)). -/
def removeKey (key : String) (l : List (String × Package)) : List (String × Package) :=
  l.filter (fun kv => kv.1 ≠ key)

/-- Resolver.Resolve: build the synthetic root package (version 0.0.0), run
resolvePackage on an empty resolved map and stack, drop the root, and wrap
the result; any error aborts with no Resolution. -/
def Resolve (pool : List Package) (root : Manifest) : Except TopErr Resolution :=
  match parseManifestDeps root.dependencies with
  | .error e => .error e
  | .ok rootDeps =>
    match resolvePackage pool (pool.length + 2) ⟨root.name, ⟨0, 0, 0⟩, rootDeps⟩ [] [] with
    | .error e => .error (.resolution e)
    | .ok resolved => .ok ⟨removeKey root.name resolved⟩

/-! ### GetResolutionOrder -/

/-- The adjacency built by GetResolutionOrder: the dependency names of the
package, restricted to names present in the Resolution. -/
def presentDeps (pkgs : List (String × Package)) (p : Package) : List String :=
  (p.deps.map Prod.fst).filter (fun d => (alookup pkgs d).isSome)

/-- graph[name] in GetResolutionOrder (a missing key reads as the empty list). -/
def adj (pkgs : List (String × Package)) (n : String) : List String :=
  match alookup pkgs n with
  | some p => presentDeps pkgs p
  | none => []

/-- The visited set and output order of the topological-sort closure. -/
structure VisitState where
  visited : List String
  order : List String

/-- The recursive visit closure of GetResolutionOrder, processing a worklist
of names: an already-visited name is skipped; an unvisited name is marked,
its adjacency is visited depth-first, and the name is appended to the order
(when it names a package). The fuel argument bounds the recursion depth: one
level is consumed per newly visited name, so any fuel above the number of
package names is enough, and exhausted fuel leaves the state unchanged. -/
def visitL (pkgs : List (String × Package)) :
    Nat → List String → VisitState → VisitState
  | 0, _, s => s
  | f + 1, names, s =>
    names.foldl
      (fun st n =>
        if st.visited.contains n then st
        else
          match alookup pkgs n with
          | some _ =>
            ⟨(visitL pkgs f (adj pkgs n) ⟨n :: st.visited, st.order⟩).visited,
             (visitL pkgs f (adj pkgs n) ⟨n :: st.visited, st.order⟩).order ++ [n]⟩
          | none => visitL pkgs f (adj pkgs n) ⟨n :: st.visited, st.order⟩)
      s

/-- One worklist element of the visit at inner fuel f. -/
def visitStep (pkgs : List (String × Package)) (f : Nat) (st : VisitState) (n : String) :
    VisitState :=
  if st.visited.contains n then st
  else
    match alookup pkgs n with
    | some _ =>
      ⟨(visitL pkgs f (adj pkgs n) ⟨n :: st.visited, st.order⟩).visited,
       (visitL pkgs f (adj pkgs n) ⟨n :: st.visited, st.order⟩).order ++ [n]⟩
    | none => visitL pkgs f (adj pkgs n) ⟨n :: st.visited, st.order⟩

/-- Resolution.GetResolutionOrder: visit every package name and return the
packages in the produced order. -/
def GetResolutionOrder (res : Resolution) : List Package :=
  let pkgs := res.packages
  let final := visitL pkgs (pkgs.length + 1) (pkgs.map Prod.fst) ⟨[], []⟩
  final.order.filterMap (fun n => alookup pkgs n)

/-! ## path/filepath (unix): Clean, Join, Dir -/

/-- The element loop of filepath.Clean on slash-separated segments: empty and
dot segments vanish, a dotdot segment pops the last real segment, cannot pop
another dotdot, is dropped at the root of a rooted path, and is kept at the
front of an unrooted path. The accumulator holds processed segments in
reverse. -/
def cleanSegsAux (rooted : Bool) : List (List Char) → List (List Char) → List (List Char)
  | acc, [] => acc.reverse
  | acc, seg :: rest =>
    if seg = [] ∨ seg = ['.'] then cleanSegsAux rooted acc rest
    else if seg = ['.', '.'] then
      match acc with
      | top :: accRest =>
        if top = ['.', '.'] then cleanSegsAux rooted (seg :: acc) rest
        else cleanSegsAux rooted accRest rest
      | [] =>
        if rooted then cleanSegsAux rooted [] rest
        else cleanSegsAux rooted [seg] rest
    else cleanSegsAux rooted (seg :: acc) rest

/-- Joining cleaned segments back with single slashes. -/
def joinSegs : List (List Char) → List Char
  | [] => []
  | [a] => a
  | a :: rest => a ++ '/' :: joinSegs rest

/-- filepath.Clean on a character list. -/
def cleanChars (cs : List Char) : List Char :=
  match cs with
  | [] => ['.']
  | c :: _ =>
    let rooted := c = '/'
    let segs := cleanSegsAux rooted [] (splitOnChar '/' cs)
    if rooted then '/' :: joinSegs segs
    else if segs = [] then ['.']
    else joinSegs segs

/-- filepath.Join: drop empty elements, join with slashes, Clean the result
(empty when every element is empty). -/
def goJoin (parts : List String) : String :=
  let ps := (parts.map String.data).filter (fun p => p ≠ [])
  if ps = [] then String.mk []
  else String.mk (cleanChars (joinSegs ps))

/-- filepath.Dir: everything up to and including the final slash, Cleaned. -/
def dirOf (s : String) : String :=
  String.mk (cleanChars ((s.data.reverse.dropWhile (fun c => c ≠ '/')).reverse))

/-! ## Installer (internal/install: installPackage, InstallFromArchive,
extractTarGz) over an abstract filesystem and registry -/

/-- Config: the directories installPackage reads (config.Config). -/
structure Config where
  packagesDir : String
  cacheDir : String

/-- Config.PackagePath. -/
def packagePath (cfg : Config) (name version : String) : String :=
  goJoin [cfg.packagesDir, name, version]

/-- Config.CachePath. -/
def cachePath (cfg : Config) (filename : String) : String :=
  goJoin [cfg.cacheDir, filename]

/-- A tar header type flag (only the two kinds extractTarGz handles). -/
inductive TarType where
  | dir
  | reg
deriving DecidableEq

/-- One archive entry: the header type flag, the header name, and (for
regular files) the content. -/
structure TarEntry where
  typeflag : TarType
  name : String
  content : String
deriving DecidableEq

/-- The abstract filesystem state: the set of existing directories and the
written files with contents. -/
structure FS where
  dirs : List String
  files : List (String × String)
deriving DecidableEq

/-- extractTarGz: each entry's on-disk target is filepath.Join(destDir,
header.Name), with no containment check; directories are created, regular
files are written after creating their parent directory. -/
def extractTarGz (destDir : String) (entries : List TarEntry) (fs : FS) : FS :=
  entries.foldl
    (fun fs e =>
      let target := goJoin [destDir, e.name]
      match e.typeflag with
      | .dir => { fs with dirs := target :: fs.dirs }
      | .reg =>
        { fs with
          dirs := dirOf target :: fs.dirs
          files := (target, e.content) :: fs.files })
    fs

/-- The registry client as an oracle: package info lookup and archive
download (the downloaded tar.gz decoded to its entries). -/
structure RegistryCtx where
  getPackageInfo : String → String → Except String Unit
  downloadPackage : String → String → Except String (List TarEntry)

/-- InstallFromArchive: create the install directory, then extract the
archive into it. -/
def InstallFromArchive (cfg : Config) (pkg : Package) (entries : List TarEntry) (fs : FS) : FS :=
  let installPath := packagePath cfg pkg.name (verString pkg.version)
  let fs1 : FS := { fs with dirs := installPath :: fs.dirs }
  extractTarGz installPath entries fs1

/-- installPackage: if the (name, version) install directory already exists
the call returns success immediately; otherwise it fetches package info,
downloads the archive into the cache, installs from the archive, and removes
the cached archive. The returned list records the downloads performed. -/
def installPackage (ctx : RegistryCtx) (cfg : Config) (pkg : Package)
    (fs : FS) (downloads : List (String × String)) :
    Except String (FS × List (String × String)) :=
  let installPath := packagePath cfg pkg.name (verString pkg.version)
  if fs.dirs.contains installPath then .ok (fs, downloads)
  else
    match ctx.getPackageInfo pkg.name (verString pkg.version) with
    | .error e => .error e
    | .ok _ =>
      let archivePath := cachePath cfg (pkg.name ++ "-" ++ verString pkg.version ++ ".tar.gz")
      match ctx.downloadPackage pkg.name (verString pkg.version) with
      | .error e => .error e
      | .ok entries =>
        let fs1 : FS := { fs with files := (archivePath, "archive-bytes") :: fs.files }
        let fs2 := InstallFromArchive cfg pkg entries fs1
        let fs3 : FS := { fs2 with files := fs2.files.filter (fun f => f.1 ≠ archivePath) }
        .ok (fs3, downloads ++ [(pkg.name, verString pkg.version)])

/-! ## Uninstaller (internal/uninstall: UninstallFromManifest version routing) -/

/-- The two removal operations UninstallFromManifest can invoke per
dependency. -/
inductive UninstallAction where
  | allVersions (name : String)
  | specificVersion (name version : String)
deriving DecidableEq

/-- The range-character test in UninstallFromManifest: the recorded version
string contains an asterisk, caret, or tilde. -/
def hasRangeChar (version : String) : Bool :=
  version.data.contains '*' || version.data.contains '^' || version.data.contains '~'

/-- The removal loop of UninstallFromManifest over the merged dependency
list: a version string with a range character removes all versions of the
name, any other removes that specific version. -/
def uninstallActions (deps : List (String × String)) : List UninstallAction :=
  deps.map fun nv =>
    if hasRangeChar nv.2 then .allVersions nv.1
    else .specificVersion nv.1 nv.2

/-! ## Specification-side predicates -/

/-- Lexicographic strict order on versions: major, then minor, then patch. -/
def versionLexLt (a b : Version) : Prop :=
  a.major < b.major ∨
    (a.major = b.major ∧
      (a.minor < b.minor ∨ (a.minor = b.minor ∧ a.patch < b.patch)))

instance (a b : Version) : Decidable (versionLexLt a b) := by
  unfold versionLexLt; infer_instance

/-- A path p lies under a base directory when it extends the base with a
slash. -/
def isUnder (base p : String) : Bool :=
  hasPre (base.data ++ ['/']) p.data

/-- A nonempty all-digit character group (what one `\d+` regex group matches). -/
def goodNum (cs : List Char) : Prop :=
  cs ≠ [] ∧ ∀ c ∈ cs, c.isDigit = true

/-- The exact shape of strings accepted by version.Parse: an optional
leading literal v, then three dot-separated nonempty digit groups. -/
def versionShape (cs : List Char) : Prop :=
  ∃ a b c, goodNum a ∧ goodNum b ∧ goodNum c ∧
    (cs = a ++ '.' :: (b ++ '.' :: c) ∨ cs = 'v' :: (a ++ '.' :: (b ++ '.' :: c)))

/-- Rejoining split groups with the separator. -/
def joinChar (sep : Char) : List (List Char) → List Char
  | [] => []
  | [a] => a
  | a :: rest => a ++ sep :: joinChar sep rest

/-! ## splitOnChar lemmas -/

theorem splitOnChar_cons_sep (sep : Char) (rest : List Char) :
    splitOnChar sep (sep :: rest) = [] :: splitOnChar sep rest := by
  simp [splitOnChar]

theorem splitOnChar_ne_nil (sep : Char) (cs : List Char) : splitOnChar sep cs ≠ [] := by
  induction cs with
  | nil => simp [splitOnChar]
  | cons c rest ih =>
    simp only [splitOnChar]
    by_cases h : c = sep
    · simp [h]
    · simp only [h, if_false]
      cases hs : splitOnChar sep rest with
      | nil => exact absurd hs ih
      | cons g gs => simp

theorem splitOnChar_cons_ne (sep c : Char) (rest : List Char) (h : c ≠ sep)
    (g : List Char) (gs : List (List Char)) (hs : splitOnChar sep rest = g :: gs) :
    splitOnChar sep (c :: rest) = (c :: g) :: gs := by
  simp [splitOnChar, h, hs]

theorem joinChar_cons_cons (sep : Char) (a g : List Char) (gs : List (List Char)) :
    joinChar sep (a :: g :: gs) = a ++ sep :: joinChar sep (g :: gs) := by
  cases gs <;> rfl

theorem joinChar_splitOnChar (sep : Char) (cs : List Char) :
    joinChar sep (splitOnChar sep cs) = cs := by
  induction cs with
  | nil => rfl
  | cons c rest ih =>
    by_cases h : c = sep
    · subst h
      rw [splitOnChar_cons_sep]
      cases hs : splitOnChar c rest with
      | nil => exact absurd hs (splitOnChar_ne_nil c rest)
      | cons g gs =>
        rw [hs] at ih
        rw [joinChar_cons_cons, ih]
        rfl
    · cases hs : splitOnChar sep rest with
      | nil => exact absurd hs (splitOnChar_ne_nil sep rest)
      | cons g gs =>
        rw [splitOnChar_cons_ne sep c rest h g gs hs]
        rw [hs] at ih
        cases gs with
        | nil =>
          have hg : g = rest := ih
          show c :: g = c :: rest
          rw [hg]
        | cons g2 gs2 =>
          rw [joinChar_cons_cons] at ih
          rw [joinChar_cons_cons, List.cons_append, ih]

theorem splitOnChar_sepfree (sep : Char) (a : List Char) (h : ∀ x ∈ a, x ≠ sep) :
    splitOnChar sep a = [a] := by
  induction a with
  | nil => rfl
  | cons c rest ih =>
    have hc : c ≠ sep := h c (List.mem_cons_self c rest)
    exact splitOnChar_cons_ne sep c rest hc rest []
      (ih (fun x hx => h x (List.mem_cons_of_mem c hx)))

theorem splitOnChar_append (sep : Char) (a rest : List Char) (h : ∀ x ∈ a, x ≠ sep) :
    splitOnChar sep (a ++ sep :: rest) = a :: splitOnChar sep rest := by
  induction a with
  | nil => simp [splitOnChar_cons_sep]
  | cons c a2 ih =>
    have hc : c ≠ sep := h c (List.mem_cons_self c a2)
    rw [List.cons_append]
    exact splitOnChar_cons_ne sep c _ hc _ _
      (ih (fun x hx => h x (List.mem_cons_of_mem c hx)))

/-! ## Parse characterization -/

theorem allDigits_iff (cs : List Char) : allDigits cs = true ↔ goodNum cs := by
  simp [allDigits, goodNum, List.isEmpty_iff, List.all_eq_true]

theorem digit_ne_dot {c : Char} (h : c.isDigit = true) : c ≠ '.' := by
  intro h2
  subst h2
  simp [Char.isDigit] at h

theorem parseDotted_eq_some_iff (cs : List Char) (v : Version) :
    parseDotted cs = some v ↔
      ∃ a b c, goodNum a ∧ goodNum b ∧ goodNum c ∧
        cs = a ++ '.' :: (b ++ '.' :: c) ∧
        v = ⟨(digitsVal a : Nat), (digitsVal b : Nat), (digitsVal c : Nat)⟩ := by
  constructor
  · intro h
    unfold parseDotted at h
    split at h
    case h_1 a b c heq =>
      split_ifs at h with hd
      · simp only [Bool.and_eq_true] at hd
        obtain ⟨⟨ha, hb⟩, hc⟩ := hd
        refine ⟨a, b, c, (allDigits_iff a).mp ha, (allDigits_iff b).mp hb, (allDigits_iff c).mp hc, ?_, ?_⟩
        · have hj : joinChar '.' (splitOnChar '.' cs) = cs := joinChar_splitOnChar '.' cs
          rw [heq] at hj
          rw [← hj, joinChar_cons_cons, joinChar_cons_cons]
          rfl
        · injection h with h2
          exact h2.symm
    case h_2 => exact Option.noConfusion h
  · rintro ⟨a, b, c, ha, hb, hc, rfl, rfl⟩
    have hafree : ∀ x ∈ a, x ≠ '.' := fun x hx => digit_ne_dot (ha.2 x hx)
    have hbfree : ∀ x ∈ b, x ≠ '.' := fun x hx => digit_ne_dot (hb.2 x hx)
    have hcfree : ∀ x ∈ c, x ≠ '.' := fun x hx => digit_ne_dot (hc.2 x hx)
    have hd : (allDigits a && allDigits b && allDigits c) = true := by
      simp only [Bool.and_eq_true]
      exact ⟨⟨(allDigits_iff a).mpr ha, (allDigits_iff b).mpr hb⟩, (allDigits_iff c).mpr hc⟩
    unfold parseDotted
    rw [splitOnChar_append _ _ _ hafree, splitOnChar_append _ _ _ hbfree,
      splitOnChar_sepfree _ _ hcfree]
    simp [hd]

theorem parseVersionChars_cons (c : Char) (rest : List Char) :
    parseVersionChars (c :: rest) =
      if c = 'v' then parseDotted rest else parseDotted (c :: rest) := rfl

theorem parseDotted_isSome_iff (ds : List Char) :
    (parseDotted ds).isSome = true ↔
      ∃ a b c, goodNum a ∧ goodNum b ∧ goodNum c ∧ ds = a ++ '.' :: (b ++ '.' :: c) := by
  constructor
  · intro h
    obtain ⟨v, hv⟩ := Option.isSome_iff_exists.mp h
    obtain ⟨a, b, c, ha, hb, hc, hshape, _⟩ := (parseDotted_eq_some_iff ds v).mp hv
    exact ⟨a, b, c, ha, hb, hc, hshape⟩
  · rintro ⟨a, b, c, ha, hb, hc, rfl⟩
    rw [Option.isSome_iff_exists]
    exact ⟨_, (parseDotted_eq_some_iff _ _).mpr ⟨a, b, c, ha, hb, hc, rfl, rfl⟩⟩

theorem parseVersionChars_isSome_iff (cs : List Char) :
    (parseVersionChars cs).isSome = true ↔ versionShape cs := by
  cases cs with
  | nil =>
    rw [show parseVersionChars [] = parseDotted [] from rfl, parseDotted_isSome_iff]
    constructor
    · rintro ⟨a, b, c, ha, hb, hc, habs⟩
      simp at habs
    · rintro ⟨a, b, c, ha, hb, hc, habs | habs⟩ <;> simp at habs
  | cons ch rest =>
    by_cases hv : ch = 'v'
    · subst hv
      rw [parseVersionChars_cons, if_pos rfl, parseDotted_isSome_iff]
      constructor
      · rintro ⟨a, b, c, ha, hb, hc, rfl⟩
        exact ⟨a, b, c, ha, hb, hc, Or.inr rfl⟩
      · rintro ⟨a, b, c, ha, hb, hc, hsh | hsh⟩
        · cases a with
          | nil => exact absurd rfl ha.1
          | cons x xs =>
            rw [List.cons_append] at hsh
            injection hsh with h1 h2
            refine absurd (ha.2 x (List.mem_cons_self x xs)) ?_
            rw [← h1]
            decide
        · injection hsh with h1 h2
          exact ⟨a, b, c, ha, hb, hc, h2⟩
    · rw [parseVersionChars_cons, if_neg hv, parseDotted_isSome_iff]
      constructor
      · rintro ⟨a, b, c, ha, hb, hc, hsh⟩
        exact ⟨a, b, c, ha, hb, hc, Or.inl hsh⟩
      · rintro ⟨a, b, c, ha, hb, hc, hsh | hsh⟩
        · exact ⟨a, b, c, ha, hb, hc, hsh⟩
        · injection hsh with h1 h2
          exact absurd h1 hv

/-! ## Character class facts about parsed versions -/

theorem digit_ne {c : Char} (h : c.isDigit = true) (d : Char) (hd : d.isDigit = false) :
    c ≠ d := by
  intro heq
  rw [heq, hd] at h
  exact Bool.noConfusion h

theorem isSpaceChar_false_of_digit {c : Char} (h : c.isDigit = true) :
    isSpaceChar c = false := by
  cases hs : isSpaceChar c
  · rfl
  · simp only [isSpaceChar, Bool.or_eq_true, decide_eq_true_eq] at hs
    rcases hs with ((((rfl | rfl) | rfl) | rfl) | rfl) | rfl <;> simp [Char.isDigit] at h

theorem versionShape_chars {cs : List Char} (h : versionShape cs) :
    ∀ ch ∈ cs, ch = 'v' ∨ ch.isDigit = true ∨ ch = '.' := by
  obtain ⟨a, b, c, ha, hb, hc, hsh | hsh⟩ := h <;> subst hsh
  · intro ch hch
    rcases List.mem_append.mp hch with h1 | h1
    · exact Or.inr (Or.inl (ha.2 ch h1))
    · rcases List.mem_cons.mp h1 with rfl | h2
      · exact Or.inr (Or.inr rfl)
      · rcases List.mem_append.mp h2 with h3 | h3
        · exact Or.inr (Or.inl (hb.2 ch h3))
        · rcases List.mem_cons.mp h3 with rfl | h4
          · exact Or.inr (Or.inr rfl)
          · exact Or.inr (Or.inl (hc.2 ch h4))
  · intro ch hch
    rcases List.mem_cons.mp hch with rfl | h1
    · exact Or.inl rfl
    · rcases List.mem_append.mp h1 with h2 | h2
      · exact Or.inr (Or.inl (ha.2 ch h2))
      · rcases List.mem_cons.mp h2 with rfl | h3
        · exact Or.inr (Or.inr rfl)
        · rcases List.mem_append.mp h3 with h4 | h4
          · exact Or.inr (Or.inl (hb.2 ch h4))
          · rcases List.mem_cons.mp h4 with rfl | h5
            · exact Or.inr (Or.inr rfl)
            · exact Or.inr (Or.inl (hc.2 ch h5))

theorem versionShape_head {cs : List Char} (h : versionShape cs) :
    ∃ h0 t, cs = h0 :: t ∧ (h0 = 'v' ∨ h0.isDigit = true) := by
  obtain ⟨a, b, c, ha, hb, hc, hsh | hsh⟩ := h
  · cases a with
    | nil => exact absurd rfl ha.1
    | cons x xs =>
      refine ⟨x, xs ++ '.' :: (b ++ '.' :: c), ?_, Or.inr (ha.2 x (List.mem_cons_self x xs))⟩
      rw [hsh]
      rfl
  · exact ⟨'v', _, hsh, Or.inl rfl⟩

theorem dropWhile_eq_self_of_all_false {α : Type} {p : α → Bool} {cs : List α}
    (h : ∀ c ∈ cs, p c = false) : cs.dropWhile p = cs := by
  cases cs with
  | nil => rfl
  | cons c rest =>
    rw [List.dropWhile_cons]
    simp [h c (List.mem_cons_self c rest)]

theorem trimSpace_eq_self {cs : List Char} (h : ∀ c ∈ cs, isSpaceChar c = false) :
    trimSpace cs = cs := by
  unfold trimSpace
  rw [dropWhile_eq_self_of_all_false h,
    dropWhile_eq_self_of_all_false (fun c hc => h c (List.mem_reverse.mp hc)),
    List.reverse_reverse]

theorem contains_eq_false_of_not_mem {cs : List Char} {a : Char} (h : a ∉ cs) :
    cs.contains a = false := by
  cases hc : cs.contains a
  · rfl
  · exact absurd (List.elem_iff.mp hc) h

theorem parseDotted_head_bad (c : Char) (cs : List Char)
    (h1 : c.isDigit = false) (h2 : c ≠ '.') : parseDotted (c :: cs) = none := by
  unfold parseDotted
  cases hs : splitOnChar '.' cs with
  | nil => exact absurd hs (splitOnChar_ne_nil _ _)
  | cons g gs =>
    rw [splitOnChar_cons_ne '.' c cs h2 g gs hs]
    cases gs with
    | nil => rfl
    | cons b gs2 =>
      cases gs2 with
      | nil => rfl
      | cons c2 gs3 =>
        cases gs3 with
        | cons g4 gs4 => rfl
        | nil =>
          have hbad : allDigits (c :: g) = false := by
            simp [allDigits, h1]
          simp [hbad]

/-! ## Claim C6: the accepted input set of Version.Parse -/

/-- The C6 counterexample input: a non-numeric single-character prefix other
than v, followed by a valid dotted version. -/
def c6Input : String := "x1.2.3"

/-- The same input without its prefix character. -/
def c6Stripped : String := "1.2.3"

/-- Claim C6, counterexample: x is a non-numeric single-character prefix and
the remainder 1.2.3 is a valid version, yet Parse rejects x1.2.3 — the
accepted prefix is the literal character v only (regex `^v?...`), not any
non-numeric character. -/
theorem claim_C6_counterexample :
    Parse c6Input = none ∧ Char.isDigit 'x' = false ∧ (Parse c6Stripped).isSome = true := by
  decide

/-- Claim C6, amended: Parse succeeds exactly on strings consisting of an
optional leading literal character v followed by exactly three dot-separated
nonempty digit sequences; every other input (fewer or more components,
non-numeric components, other prefix characters, the empty string) fails. -/
theorem claim_C6_parse_accepts (s : String) :
    (Parse s).isSome = true ↔ versionShape s.data := by
  rw [show Parse s = parseVersionChars s.data from rfl]
  exact parseVersionChars_isSome_iff s.data

/-- The C6 witness input. -/
def c6Good : String := "v1.2.3"

/-- Claim C6, witness: the amended characterization applied at v1.2.3. -/
theorem claim_C6_witness : versionShape c6Good.data :=
  (claim_C6_parse_accepts c6Good).mp rfl

/-! ## Claim C4: single leading comparison operators in ParseConstraint -/

/-- ParseConstraint unfolds on an explicit character list. -/
theorem ParseConstraint_mk (cs : List Char) :
    ParseConstraint ⟨cs⟩ = constraintOfChars (trimSpace cs) := rfl

/-- The input of the C4 counterexample: a single leading greater-than. -/
def c4GtInput : String := ">1.0.0"

/-- A single leading less-than-or-equal. -/
def c4LeInput : String := "<=1.0.0"

/-- A single leading less-than. -/
def c4LtInput : String := "<1.0.0"

/-- A single leading greater-than-or-equal. -/
def c4GeInput : String := ">=1.0.0"

/-- Claim C4, counterexample: of the four single leading comparison
operators, only >= parses; >1.0.0, <=1.0.0 and <1.0.0 all fail (they fall
through to the exact-version branch, whose Parse rejects them). -/
theorem claim_C4_counterexample :
    ParseConstraint c4GtInput = none ∧
      ParseConstraint c4LeInput = none ∧
      ParseConstraint c4LtInput = none ∧
      ParseConstraint c4GeInput = some (.range (some ⟨1, 0, 0⟩) none true false) :=
  ⟨rfl, rfl, rfl, rfl⟩

/-- Claim C4, amended: for every comma-free input consisting of a single
leading comparison operator followed by a valid version, ParseConstraint
succeeds only for the operator >=, producing the one-sided Range with that
inclusive lower bound; the operators >, <= and < in leading position are
rejected with an error. -/
theorem claim_C4_single_operator (vs : String) (v : Version) (hv : Parse vs = some v) :
    ParseConstraint ⟨'>' :: '=' :: vs.data⟩ = some (.range (some v) none true false) ∧
      ParseConstraint ⟨'>' :: vs.data⟩ = none ∧
      ParseConstraint ⟨'<' :: '=' :: vs.data⟩ = none ∧
      ParseConstraint ⟨'<' :: vs.data⟩ = none := by
  have hpv : parseVersionChars vs.data = some v := hv
  have hshape : versionShape vs.data := by
    refine (parseVersionChars_isSome_iff vs.data).mp ?_
    rw [hpv]
    rfl
  have hclass := versionShape_chars hshape
  obtain ⟨h0, t, hht, hh0⟩ := versionShape_head hshape
  have hnospace : ∀ c ∈ vs.data, isSpaceChar c = false := by
    intro c hc
    rcases hclass c hc with rfl | h | rfl
    · decide
    · exact isSpaceChar_false_of_digit h
    · decide
  have hnocomma : ∀ c ∈ vs.data, c ≠ ',' := by
    intro c hc
    rcases hclass c hc with rfl | h | rfl
    · decide
    · exact digit_ne h ',' (by decide)
    · decide
  have hh0ne : ∀ d : Char, d.isDigit = false → d ≠ 'v' → ¬(d = h0) := by
    intro d hd hdv heq
    rcases hh0 with h1 | h1
    · rw [h1] at heq
      exact hdv heq
    · rw [heq] at hd
      rw [h1] at hd
      exact Bool.noConfusion hd
  -- facts shared by all four inputs
  have space2 : ∀ op1 op2 : Char, isSpaceChar op1 = false → isSpaceChar op2 = false →
      trimSpace (op1 :: op2 :: vs.data) = op1 :: op2 :: vs.data := by
    intro op1 op2 hs1 hs2
    refine trimSpace_eq_self ?_
    intro c hc
    rcases List.mem_cons.mp hc with rfl | hc2
    · exact hs1
    · rcases List.mem_cons.mp hc2 with rfl | hc3
      · exact hs2
      · exact hnospace c hc3
  have space1 : ∀ op1 : Char, isSpaceChar op1 = false →
      trimSpace (op1 :: vs.data) = op1 :: vs.data := by
    intro op1 hs1
    refine trimSpace_eq_self ?_
    intro c hc
    rcases List.mem_cons.mp hc with rfl | hc2
    · exact hs1
    · exact hnospace c hc2
  have comma2 : ∀ op1 op2 : Char, op1 ≠ ',' → op2 ≠ ',' →
      (op1 :: op2 :: vs.data).contains ',' = false := by
    intro op1 op2 hn1 hn2
    refine contains_eq_false_of_not_mem ?_
    intro hmem
    rcases List.mem_cons.mp hmem with heq | hmem2
    · exact hn1 heq.symm
    · rcases List.mem_cons.mp hmem2 with heq | hmem3
      · exact hn2 heq.symm
      · exact hnocomma _ hmem3 rfl
  have comma1 : ∀ op1 : Char, op1 ≠ ',' → (op1 :: vs.data).contains ',' = false := by
    intro op1 hn1
    refine contains_eq_false_of_not_mem ?_
    intro hmem
    rcases List.mem_cons.mp hmem with heq | hmem2
    · exact hn1 heq.symm
    · exact hnocomma _ hmem2 rfl
  refine ⟨?_, ?_, ?_, ?_⟩
  · -- >=vs parses to a one-sided range
    rw [ParseConstraint_mk, space2 '>' '=' (by decide) (by decide)]
    have e1 : hasPre ['^'] ('>' :: '=' :: vs.data) = false := by simp [hasPre]
    have e2 : hasPre ['~'] ('>' :: '=' :: vs.data) = false := by simp [hasPre]
    have e3 : ('>' :: '=' :: vs.data).contains ',' = false :=
      comma2 '>' '=' (by decide) (by decide)
    have e4 : hasPre ['>', '='] ('>' :: '=' :: vs.data) = true := by simp [hasPre]
    unfold constraintOfChars
    rw [e1, if_neg Bool.false_ne_true, e2, if_neg Bool.false_ne_true,
      e3, if_neg Bool.false_ne_true, e4, if_pos rfl]
    simp only [List.drop_succ_cons, List.drop_zero]
    rw [hpv]
    rfl
  · -- >vs falls through to the exact branch and fails
    rw [ParseConstraint_mk, space1 '>' (by decide)]
    have e1 : hasPre ['^'] ('>' :: vs.data) = false := by simp [hasPre]
    have e2 : hasPre ['~'] ('>' :: vs.data) = false := by simp [hasPre]
    have e3 : ('>' :: vs.data).contains ',' = false := comma1 '>' (by decide)
    have ege : hasPre ['>', '='] ('>' :: vs.data) = false := by
      have hd : ('=' = h0) = False := eq_false (hh0ne '=' (by decide) (by decide))
      rw [hht]
      simp [hasPre, hd]
    have hexact : parseVersionChars ('>' :: vs.data) = none := by
      rw [parseVersionChars_cons, if_neg (by decide)]
      exact parseDotted_head_bad '>' vs.data (by decide) (by decide)
    unfold constraintOfChars
    rw [e1, if_neg Bool.false_ne_true, e2, if_neg Bool.false_ne_true,
      e3, if_neg Bool.false_ne_true, ege, if_neg Bool.false_ne_true, hexact]
    rfl
  · -- <=vs falls through to the exact branch and fails
    rw [ParseConstraint_mk, space2 '<' '=' (by decide) (by decide)]
    have e1 : hasPre ['^'] ('<' :: '=' :: vs.data) = false := by simp [hasPre]
    have e2 : hasPre ['~'] ('<' :: '=' :: vs.data) = false := by simp [hasPre]
    have e3 : ('<' :: '=' :: vs.data).contains ',' = false :=
      comma2 '<' '=' (by decide) (by decide)
    have e4 : hasPre ['>', '='] ('<' :: '=' :: vs.data) = false := by simp [hasPre]
    have hexact : parseVersionChars ('<' :: '=' :: vs.data) = none := by
      rw [parseVersionChars_cons, if_neg (by decide)]
      exact parseDotted_head_bad '<' ('=' :: vs.data) (by decide) (by decide)
    unfold constraintOfChars
    rw [e1, if_neg Bool.false_ne_true, e2, if_neg Bool.false_ne_true,
      e3, if_neg Bool.false_ne_true, e4, if_neg Bool.false_ne_true, hexact]
    rfl
  · -- <vs falls through to the exact branch and fails
    rw [ParseConstraint_mk, space1 '<' (by decide)]
    have e1 : hasPre ['^'] ('<' :: vs.data) = false := by simp [hasPre]
    have e2 : hasPre ['~'] ('<' :: vs.data) = false := by simp [hasPre]
    have e3 : ('<' :: vs.data).contains ',' = false := comma1 '<' (by decide)
    have e4 : hasPre ['>', '='] ('<' :: vs.data) = false := by simp [hasPre]
    have hexact : parseVersionChars ('<' :: vs.data) = none := by
      rw [parseVersionChars_cons, if_neg (by decide)]
      exact parseDotted_head_bad '<' vs.data (by decide) (by decide)
    unfold constraintOfChars
    rw [e1, if_neg Bool.false_ne_true, e2, if_neg Bool.false_ne_true,
      e3, if_neg Bool.false_ne_true, e4, if_neg Bool.false_ne_true, hexact]
    rfl

/-- The version string of the C4 witness. -/
def c4Vs : String := "1.0.0"

/-- Claim C4, witness: the amended statement applied at version 1.0.0. -/
theorem claim_C4_witness :
    ParseConstraint ⟨'>' :: '=' :: c4Vs.data⟩ = some (.range (some ⟨1, 0, 0⟩) none true false) :=
  (claim_C4_single_operator c4Vs ⟨1, 0, 0⟩ rfl).1

/-! ## Claim C5: Version.Compare -/

/-- Claim C5, counterexample: Compare(3.0.0, 1.0.0) returns 2, which is none
of -1, 0, +1, so Compare does not return exactly one of those values. -/
theorem claim_C5_counterexample :
    Version.Compare ⟨3, 0, 0⟩ ⟨1, 0, 0⟩ = 2 ∧
      Version.Compare ⟨3, 0, 0⟩ ⟨1, 0, 0⟩ ≠ -1 ∧
      Version.Compare ⟨3, 0, 0⟩ ⟨1, 0, 0⟩ ≠ 0 ∧
      Version.Compare ⟨3, 0, 0⟩ ⟨1, 0, 0⟩ ≠ 1 := by
  decide

/-- Claim C5, amended: Compare(a, b) compares major, then minor, then patch,
short-circuiting on the first differing component, and returns an integer
that is zero exactly when the versions are equal, negative exactly when a
precedes b lexicographically, and positive exactly when b precedes a (the
exact value is the difference of the first differing component, not
necessarily -1 or +1). -/
theorem claim_C5_compare_sign (a b : Version) :
    (Version.Compare a b = 0 ↔ a = b) ∧
      (Version.Compare a b < 0 ↔ versionLexLt a b) ∧
      (0 < Version.Compare a b ↔ versionLexLt b a) := by
  obtain ⟨am, ai, ap⟩ := a
  obtain ⟨bm, bi, bp⟩ := b
  simp only [Version.Compare, versionLexLt, Version.mk.injEq]
  split_ifs <;> simp_all <;> omega

/-- Claim C5, witness: the amended statement evaluated at 1.2.3 and 1.2.4. -/
theorem claim_C5_witness :
    versionLexLt ⟨1, 2, 3⟩ ⟨1, 2, 4⟩ ∧ Version.Compare ⟨1, 2, 3⟩ ⟨1, 2, 4⟩ < 0 :=
  ⟨by decide, (claim_C5_compare_sign ⟨1, 2, 3⟩ ⟨1, 2, 4⟩).2.1.mpr (by decide)⟩

/-! ## Claim C7: UninstallFromManifest version routing -/

/-- The version string of the C7 counterexample. -/
def geVersionStr : String := ">=1.0.0"

/-- A package name used in the C7 statements. -/
def fooName : String := "foo"

/-- A second package name used in the C7 witness. -/
def barName : String := "bar"

/-- A tilde version string used in the C7 witness. -/
def tildeVersionStr : String := "~1.2.3"

/-- The dependency list of the C7 counterexample. -/
def c7Deps : List (String × String) := [(fooName, geVersionStr)]

/-- Claim C7, counterexample: the recorded version string >=1.0.0 contains
the range-indicating characters > and =, yet UninstallFromManifest removes
the single specific version, not all versions of the name. -/
theorem claim_C7_counterexample :
    uninstallActions c7Deps = [.specificVersion fooName geVersionStr] ∧
      UninstallAction.allVersions fooName ∉ uninstallActions c7Deps := by
  decide

/-- Membership form of the hasRangeChar test. -/
theorem hasRangeChar_iff (v : String) :
    hasRangeChar v = true ↔ ∃ ch ∈ v.data, ch = '*' ∨ ch = '^' ∨ ch = '~' := by
  simp only [hasRangeChar, Bool.or_eq_true, List.elem_iff]
  constructor
  · rintro ((h | h) | h)
    · exact ⟨'*', h, Or.inl rfl⟩
    · exact ⟨'^', h, Or.inr (Or.inl rfl)⟩
    · exact ⟨'~', h, Or.inr (Or.inr rfl)⟩
  · rintro ⟨ch, hmem, (rfl | rfl | rfl)⟩
    · exact Or.inl (Or.inl hmem)
    · exact Or.inl (Or.inr hmem)
    · exact Or.inr hmem

/-- Claim C7, amended: in UninstallFromManifest, a dependency whose recorded
version string contains an asterisk, caret, or tilde has all installed
versions of the name removed; a version string containing none of those
three characters (even if it contains >, <, =, or a comma) has only the
recorded specific version removed. -/
theorem claim_C7_range_routing (deps : List (String × String)) (name version : String)
    (hmem : (name, version) ∈ deps) :
    ((∃ ch ∈ version.data, ch = '*' ∨ ch = '^' ∨ ch = '~') →
      UninstallAction.allVersions name ∈ uninstallActions deps) ∧
    ((∀ ch ∈ version.data, ch ≠ '*' ∧ ch ≠ '^' ∧ ch ≠ '~') →
      UninstallAction.specificVersion name version ∈ uninstallActions deps) := by
  constructor
  · intro hrange
    have hr : hasRangeChar version = true := (hasRangeChar_iff version).mpr hrange
    refine List.mem_map.mpr ⟨(name, version), hmem, ?_⟩
    simp [hr]
  · intro hclean
    have hr : hasRangeChar version = false := by
      by_contra h
      have h1 : hasRangeChar version = true := by
        cases hb : hasRangeChar version
        · exact absurd hb h
        · rfl
      obtain ⟨ch, hm, hch⟩ := (hasRangeChar_iff version).mp h1
      rcases hch with rfl | rfl | rfl
      · exact ((hclean _ hm).1 rfl)
      · exact ((hclean _ hm).2.1 rfl)
      · exact ((hclean _ hm).2.2 rfl)
    refine List.mem_map.mpr ⟨(name, version), hmem, ?_⟩
    simp [hr]

/-- Claim C7, witness: the amended routing evaluated on a two-entry manifest
dependency list. -/
theorem claim_C7_witness :
    UninstallAction.allVersions barName ∈ uninstallActions [(fooName, geVersionStr), (barName, tildeVersionStr)] ∧
      UninstallAction.specificVersion fooName geVersionStr ∈
        uninstallActions [(fooName, geVersionStr), (barName, tildeVersionStr)] :=
  ⟨(claim_C7_range_routing _ barName tildeVersionStr (by decide)).1 ⟨'~', by decide, by decide⟩,
   (claim_C7_range_routing _ fooName geVersionStr (by decide)).2 (by decide)⟩

/-! ## Claim C9: comma-separated clauses with no comparison operator -/

/-- The C9 input string. -/
def c9Input : String := "1.0.0, 2.0.0"

/-- Claim C9: ParseConstraint on the two-clause input 1.0.0, 2.0.0 (neither
clause beginning with a comparison operator) succeeds, silently skipping both
clauses, and yields a Range with no bounds whose Satisfies accepts every
version. -/
theorem claim_C9_unbounded_range :
    ParseConstraint c9Input = some (.range none none false false) ∧
      ∀ v : Version, Constraint.Satisfies (.range none none false false) v = true :=
  ⟨rfl, fun _ => rfl⟩

/-! ## Claim C10: extractTarGz path traversal -/

/-- The destination directory of the C10 counter-scenario. -/
def c10Dest : String := "/opt/carrion/packages/foo/1.0.0"

/-- The malicious archive entry name. -/
def c10EntryName : String := "../../../../../etc/evil"

/-- The escaped on-disk target. -/
def c10Target : String := "/etc/evil"

/-- The single-entry malicious archive. -/
def c10Archive : List TarEntry := [⟨.reg, c10EntryName, "pwned"⟩]

/-- Claim C10: extractTarGz computes the entry target as
filepath.Join(destDir, header.Name) with no containment check, so the entry
name ../../../../../etc/evil resolves to /etc/evil, which does not lie under
the destination directory, and extraction writes that file outside the
install path. -/
theorem claim_C10_path_traversal :
    goJoin [c10Dest, c10EntryName] = c10Target ∧
      isUnder c10Dest c10Target = false ∧
      (c10Target, "pwned") ∈ (extractTarGz c10Dest c10Archive ⟨[], []⟩).files := by
  refine ⟨rfl, rfl, ?_⟩
  show (c10Target, "pwned") ∈ [(c10Target, "pwned")]
  simp

/-! ## Claim C1: candidate selection in resolvePackage -/

theorem compare_self (v : Version) : Version.Compare v v = 0 := by
  simp [Version.Compare]

instance : IsTotal Package verGE :=
  ⟨fun p q => by
    unfold verGE Version.Compare
    split_ifs <;> omega⟩

instance : IsTrans Package verGE :=
  ⟨fun p q r h1 h2 => by
    unfold verGE Version.Compare at h1 h2 ⊢
    split_ifs at h1 h2 ⊢ <;> omega⟩

theorem find?_eq_some_split {α : Type} (p : α → Bool) (l : List α) (a : α)
    (h : l.find? p = some a) :
    ∃ l1 l2, l = l1 ++ a :: l2 ∧ (∀ x ∈ l1, p x = false) ∧ p a = true := by
  induction l with
  | nil => simp [List.find?] at h
  | cons x xs ih =>
    by_cases hp : p x = true
    · rw [List.find?_cons_of_pos _ hp] at h
      injection h with h
      subst h
      exact ⟨[], xs, rfl, by simp, hp⟩
    · have hpf : p x = false := by
        cases hpx : p x
        · rfl
        · exact absurd hpx hp
      rw [List.find?_cons_of_neg _ hp] at h
      obtain ⟨l1, l2, rfl, hl1, hpa⟩ := ih h
      refine ⟨x :: l1, l2, rfl, ?_, hpa⟩
      intro y hy
      rcases List.mem_cons.mp hy with rfl | hy2
      · exact hpf
      · exact hl1 y hy2

/-- Claim C1: during Resolve, for a dependency name not yet in the resolved
map, the loop body behaves as follows: with no pool variants for the name it
fails with PackageNotFound; with variants but none satisfying the constraint
it fails with NoCompatibleVersion; otherwise the selected candidate is a pool
variant of that name that satisfies the constraint and has the greatest
version among satisfying variants (the first satisfying candidate in
descending version order), and resolution proceeds recursively with it
recorded. -/
theorem claim_C1_candidate_selection (pool : List Package) (depName : String) (c : Constraint)
    (recurse : Package → List (String × Package) → List String → Except ResolveErr (List (String × Package)))
    (pkgName : String) (stack : List String) (resolved : List (String × Package))
    (hnew : alookup resolved depName = none) :
    (poolCandidates pool depName = [] →
      resolveStep pool recurse pkgName stack resolved (depName, c) =
        .error (.packageNotFound depName)) ∧
    (poolCandidates pool depName ≠ [] →
      (∀ q ∈ poolCandidates pool depName, c.Satisfies q.version = false) →
      resolveStep pool recurse pkgName stack resolved (depName, c) =
        .error (.noCompatibleVersion depName c)) ∧
    (∀ p, selectCandidate pool depName c = .ok p →
      p ∈ poolCandidates pool depName ∧ c.Satisfies p.version = true ∧
      (∀ q ∈ poolCandidates pool depName, c.Satisfies q.version = true →
        q.version.Compare p.version ≤ 0) ∧
      resolveStep pool recurse pkgName stack resolved (depName, c) =
        recurse p ((depName, p) :: resolved) stack) := by
  have hstep : resolveStep pool recurse pkgName stack resolved (depName, c) =
      match selectCandidate pool depName c with
      | .error e => .error e
      | .ok selected => recurse selected ((depName, selected) :: resolved) stack := by
    unfold resolveStep
    rw [hnew]
  refine ⟨?_, ?_, ?_⟩
  · intro hempty
    have hsel : selectCandidate pool depName c = .error (.packageNotFound depName) := by
      simp [selectCandidate, hempty]
    rw [hstep, hsel]
  · intro hempty hnone
    · have hfind : (List.insertionSort verGE (poolCandidates pool depName)).find?
          (fun p => c.Satisfies p.version) = none := by
        cases hf : (List.insertionSort verGE (poolCandidates pool depName)).find?
            (fun p => c.Satisfies p.version) with
        | none => rfl
        | some p =>
          have hp : c.Satisfies p.version = true :=
            List.find?_some (p := fun q : Package => c.Satisfies q.version) hf
          have hpm : p ∈ List.insertionSort verGE (poolCandidates pool depName) :=
            List.mem_of_find?_eq_some hf
          have hpc : p ∈ poolCandidates pool depName :=
            (List.perm_insertionSort verGE (poolCandidates pool depName)).mem_iff.mp hpm
          rw [hnone p hpc] at hp
          exact Bool.noConfusion hp
      have hne : (poolCandidates pool depName).isEmpty = false := by
        cases hc : poolCandidates pool depName with
        | nil => exact absurd hc hempty
        | cons a l => rfl
      have hsel : selectCandidate pool depName c = .error (.noCompatibleVersion depName c) := by
        unfold selectCandidate
        rw [hne, if_neg Bool.false_ne_true, hfind]
      rw [hstep, hsel]
  · intro p hsel
    have hanalysis : p ∈ poolCandidates pool depName ∧ c.Satisfies p.version = true ∧
        (∀ q ∈ poolCandidates pool depName, c.Satisfies q.version = true →
          q.version.Compare p.version ≤ 0) := by
      unfold selectCandidate at hsel
      by_cases hempty : (poolCandidates pool depName).isEmpty = true
      · rw [hempty, if_pos rfl] at hsel
        exact Except.noConfusion hsel
      · have hne : (poolCandidates pool depName).isEmpty = false := by
          cases hc : (poolCandidates pool depName).isEmpty
          · rfl
          · exact absurd hc hempty
        rw [hne, if_neg Bool.false_ne_true] at hsel
        cases hf : (List.insertionSort verGE (poolCandidates pool depName)).find?
            (fun q => c.Satisfies q.version) with
        | none => rw [hf] at hsel; exact Except.noConfusion hsel
        | some p2 =>
          rw [hf] at hsel
          injection hsel with hp2
          subst hp2
          have hperm := List.perm_insertionSort verGE (poolCandidates pool depName)
          have hsorted : List.Sorted verGE (List.insertionSort verGE (poolCandidates pool depName)) :=
            List.sorted_insertionSort verGE (poolCandidates pool depName)
          obtain ⟨l1, l2, hdec, hl1, hpa⟩ := find?_eq_some_split _ _ _ hf
          refine ⟨?_, hpa, ?_⟩
          · exact hperm.mem_iff.mp (by rw [hdec]; exact List.mem_append_right l1 (List.mem_cons_self _ l2))
          · intro q hq hqsat
            have hqs : q ∈ List.insertionSort verGE (poolCandidates pool depName) :=
              hperm.mem_iff.mpr hq
            rw [hdec] at hqs hsorted
            rcases List.mem_append.mp hqs with hq1 | hq2
            · rw [hl1 q hq1] at hqsat
              exact Bool.noConfusion hqsat
            · rcases List.mem_cons.mp hq2 with rfl | hq3
              · rw [compare_self]
              · have hpair := (List.pairwise_append.mp hsorted).2.1
                exact (List.pairwise_cons.mp hpair).1 q hq3
    refine ⟨hanalysis.1, hanalysis.2.1, hanalysis.2.2, ?_⟩
    rw [hstep, hsel]

/-- The candidate pool of the C1 witness: two variants of package b. -/
def c1B10 : Package := ⟨"b", ⟨1, 0, 0⟩, []⟩

/-- The newer b variant. -/
def c1B15 : Package := ⟨"b", ⟨1, 5, 0⟩, []⟩

/-- The witness pool. -/
def c1Pool : List Package := [c1B10, c1B15]

/-- The witness constraint: caret 1.0.0. -/
def c1C : Constraint := .range (some ⟨1, 0, 0⟩) (some ⟨2, 0, 0⟩) true false

/-- The witness recursion stub: record and return. -/
def c1Recurse : Package → List (String × Package) → List String → Except ResolveErr (List (String × Package)) :=
  fun _ r _ => .ok r

/-- The dependency name of the C1 witness. -/
def c1Name : String := "b"

/-- Claim C1, witness: on a pool holding b@1.0.0 and b@1.5.0 under the
constraint ^1.0.0, the selection picks b@1.5.0 (newest satisfying) and the
loop body proceeds with it recorded. -/
theorem claim_C1_witness :
    selectCandidate c1Pool c1Name c1C = .ok c1B15 ∧
      c1B15 ∈ poolCandidates c1Pool c1Name ∧
      Constraint.Satisfies c1C c1B15.version = true ∧
      resolveStep c1Pool c1Recurse c1Name [] [] (c1Name, c1C) = .ok [(c1Name, c1B15)] := by
  have h := (claim_C1_candidate_selection c1Pool c1Name c1C c1Recurse c1Name [] [] rfl).2.2 c1B15 rfl
  refine ⟨rfl, h.1, h.2.1, ?_⟩
  rw [h.2.2.2]
  rfl

/-! ## Claim C2: version conflicts, no backtracking, fail-fast Resolve -/

/-- resolvePackage unfolds at zero fuel. -/
theorem resolvePackage_zero (pool : List Package) (pkg : Package)
    (resolved : List (String × Package)) (stack : List String) :
    resolvePackage pool 0 pkg resolved stack = .error .outOfFuel := rfl

/-- resolvePackage unfolds at positive fuel. -/
theorem resolvePackage_succ (pool : List Package) (fuel : Nat) (pkg : Package)
    (resolved : List (String × Package)) (stack : List String) :
    resolvePackage pool (fuel + 1) pkg resolved stack =
      if stack.contains pkg.name then .error (.circular (stack ++ [pkg.name]))
      else
        pkg.deps.foldlM
          (resolveStep pool (fun p r s => resolvePackage pool fuel p r s) pkg.name
            (stack ++ [pkg.name]))
          resolved := rfl

/-- Bindings in the resolved map are preserved: the second map keeps every
binding of the first. -/
def keepsBindings (r out : List (String × Package)) : Prop :=
  ∀ n p, alookup r n = some p → alookup out n = some p

theorem keepsBindings_refl (r : List (String × Package)) : keepsBindings r r :=
  fun _ _ h => h

theorem keepsBindings_trans {a b c : List (String × Package)}
    (h1 : keepsBindings a b) (h2 : keepsBindings b c) : keepsBindings a c :=
  fun n p h => h2 n p (h1 n p h)

theorem keepsBindings_cons {r : List (String × Package)} {dn : String} {sel : Package}
    (hnew : alookup r dn = none) : keepsBindings r ((dn, sel) :: r) := by
  intro n p h
  show (if dn = n then some sel else alookup r n) = some p
  by_cases hdn : dn = n
  · subst hdn
    rw [hnew] at h
    exact Option.noConfusion h
  · rw [if_neg hdn]
    exact h

/-- The dependency loop of resolvePackage never drops or changes an existing
binding, provided the recursive calls do not either. -/
theorem foldlM_resolveStep_keeps (pool : List Package)
    (rec2 : Package → List (String × Package) → List String → Except ResolveErr (List (String × Package)))
    (hrec : ∀ p r s out, rec2 p r s = .ok out → keepsBindings r out)
    (pkgName : String) (stack : List String) :
    ∀ (deps : List (String × Constraint)) (resolved out : List (String × Package)),
      deps.foldlM (resolveStep pool rec2 pkgName stack) resolved = .ok out →
      keepsBindings resolved out := by
  intro deps
  induction deps with
  | nil =>
    intro resolved out h
    rw [List.foldlM_nil] at h
    injection h with h
    subst h
    exact keepsBindings_refl resolved
  | cons dep rest ih =>
    intro resolved out h
    rw [List.foldlM_cons] at h
    cases hs : resolveStep pool rec2 pkgName stack resolved dep with
    | error e =>
      rw [hs] at h
      exact Except.noConfusion h
    | ok mid =>
      rw [hs] at h
      have h2 : rest.foldlM (resolveStep pool rec2 pkgName stack) mid = .ok out := h
      have hmid : keepsBindings resolved mid := by
        unfold resolveStep at hs
        cases hl : alookup resolved dep.1 with
        | some existing =>
          rw [hl] at hs
          have hs2 : (if dep.2.Satisfies existing.version = true then Except.ok resolved
              else Except.error (ResolveErr.versionConflict dep.1 pkgName dep.2 existing.version)) =
              Except.ok mid := hs
          by_cases hsat : dep.2.Satisfies existing.version = true
          · rw [hsat, if_pos rfl] at hs2
            injection hs2 with hs3
            subst hs3
            exact keepsBindings_refl resolved
          · have hf : dep.2.Satisfies existing.version = false := by
              cases hx : dep.2.Satisfies existing.version
              · rfl
              · exact absurd hx hsat
            rw [hf, if_neg Bool.false_ne_true] at hs2
            exact Except.noConfusion hs2
        | none =>
          rw [hl] at hs
          have hs2 : (match selectCandidate pool dep.1 dep.2 with
              | Except.error e => Except.error e
              | Except.ok selected => rec2 selected ((dep.1, selected) :: resolved) stack) =
              Except.ok mid := hs
          cases hsel : selectCandidate pool dep.1 dep.2 with
          | error e =>
            rw [hsel] at hs2
            exact Except.noConfusion hs2
          | ok sel =>
            rw [hsel] at hs2
            exact keepsBindings_trans (keepsBindings_cons hl) (hrec sel _ stack mid hs2)
      exact keepsBindings_trans hmid (ih mid out h2)

/-- resolvePackage never drops or changes an existing binding. -/
theorem resolvePackage_keeps (pool : List Package) :
    ∀ (fuel : Nat) (pkg : Package) (resolved out : List (String × Package)) (stack : List String),
      resolvePackage pool fuel pkg resolved stack = .ok out →
      keepsBindings resolved out := by
  intro fuel
  induction fuel with
  | zero =>
    intro pkg resolved out stack h
    rw [resolvePackage_zero] at h
    exact Except.noConfusion h
  | succ f ihf =>
    intro pkg resolved out stack h
    rw [resolvePackage_succ] at h
    by_cases hst : stack.contains pkg.name = true
    · rw [hst, if_pos rfl] at h
      exact Except.noConfusion h
    · have hsf : stack.contains pkg.name = false := by
        cases hx : stack.contains pkg.name
        · rfl
        · exact absurd hx hst
      rw [hsf, if_neg Bool.false_ne_true] at h
      exact foldlM_resolveStep_keeps pool _
        (fun p r s o hr => ihf p r o s hr) pkg.name (stack ++ [pkg.name])
        pkg.deps resolved out h

/-- Claim C2: a dependency whose name is already resolved to a version not
satisfying the current constraint makes the loop body fail with
VersionConflict naming the dependency, the requiring package, the constraint
and the conflicting version; resolution never backtracks — a successful
resolvePackage call keeps every pre-existing binding unchanged; and when
resolvePackage fails, Resolve returns that error and no Resolution value. -/
theorem claim_C2_conflict_failfast :
    (∀ (pool : List Package)
        (recurse : Package → List (String × Package) → List String → Except ResolveErr (List (String × Package)))
        (pkgName : String) (stack : List String)
        (resolved : List (String × Package)) (depName : String) (c : Constraint)
        (existing : Package),
      alookup resolved depName = some existing →
      c.Satisfies existing.version = false →
      resolveStep pool recurse pkgName stack resolved (depName, c) =
        .error (.versionConflict depName pkgName c existing.version)) ∧
    (∀ (pool : List Package) (fuel : Nat) (pkg : Package)
        (resolved out : List (String × Package)) (stack : List String),
      resolvePackage pool fuel pkg resolved stack = .ok out →
      ∀ n p, alookup resolved n = some p → alookup out n = some p) ∧
    (∀ (pool : List Package) (root : Manifest) (rootDeps : List (String × Constraint))
        (e : ResolveErr),
      parseManifestDeps root.dependencies = .ok rootDeps →
      resolvePackage pool (pool.length + 2) ⟨root.name, ⟨0, 0, 0⟩, rootDeps⟩ [] [] = .error e →
      Resolve pool root = .error (.resolution e)) := by
  refine ⟨?_, ?_, ?_⟩
  · intro pool recurse pkgName stack resolved depName c existing hlook hsat
    unfold resolveStep
    rw [hlook]
    show (if c.Satisfies existing.version = true then Except.ok resolved
        else Except.error (ResolveErr.versionConflict depName pkgName c existing.version)) =
      Except.error (ResolveErr.versionConflict depName pkgName c existing.version)
    rw [hsat, if_neg Bool.false_ne_true]
  · intro pool fuel pkg resolved out stack h
    exact resolvePackage_keeps pool fuel pkg resolved out stack h
  · intro pool root rootDeps e hparse hres
    unfold Resolve
    rw [hparse]
    show (match resolvePackage pool (pool.length + 2)
          ⟨root.name, ⟨0, 0, 0⟩, rootDeps⟩ [] [] with
        | Except.error e => Except.error (TopErr.resolution e)
        | Except.ok resolved => Except.ok (Resolution.mk (removeKey root.name resolved))) =
      Except.error (TopErr.resolution e)
    rw [hres]

/-- The package of the C2 witness conflict. -/
def c2Existing : Package := ⟨"dep", ⟨1, 0, 0⟩, []⟩

/-- The resolved map already binding dep. -/
def c2Resolved : List (String × Package) := [("dep", c2Existing)]

/-- The conflicting constraint: exactly 9.9.9. -/
def c2C : Constraint := .exact ⟨9, 9, 9⟩

/-- The dependency name of the C2 witness. -/
def c2Dep : String := "dep"

/-- The requiring package name of the C2 witness. -/
def c2Req : String := "requirer"

/-- A root manifest whose single dependency is missing from the empty pool. -/
def c2Root : Manifest := ⟨"root", [("x", ">=1.0.0")]⟩

/-- The parsed dependency list of that root. -/
def c2RootDeps : List (String × Constraint) := [("x", .range (some ⟨1, 0, 0⟩) none true false)]

/-- Claim C2, witness: the conflict error, the binding preservation, and the
fail-fast Resolve conclusion, each at a concrete input. -/
theorem claim_C2_witness :
    resolveStep [] c1Recurse c2Req [] c2Resolved (c2Dep, c2C) =
        .error (.versionConflict c2Dep c2Req c2C c2Existing.version) ∧
      alookup c2Resolved c2Dep = some c2Existing ∧
      Resolve [] c2Root = .error (.resolution (.packageNotFound "x")) := by
  have h := claim_C2_conflict_failfast
  refine ⟨h.1 [] c1Recurse c2Req [] c2Resolved c2Dep c2C c2Existing rfl rfl, rfl, ?_⟩
  exact h.2.2 [] c2Root c2RootDeps (.packageNotFound "x") rfl rfl

/-! ## Claim C3: GetResolutionOrder is a topological order -/

/-- Nonempty directed paths in a dependency graph given by adjacency lists:
an edge from n to each member of g n. -/
inductive GPath (g : String → List String) : String → String → Prop where
  | edge {n d : String} : d ∈ g n → GPath g n d
  | cons {n d m : String} : d ∈ g n → GPath g d m → GPath g n m

/-- A graph is acyclic when no node has a nonempty path back to itself. -/
def Acyclic (g : String → List String) : Prop := ∀ n, ¬ GPath g n n

theorem GPath.snoc {g : String → List String} {a b c : String}
    (h : GPath g a b) : c ∈ g b → GPath g a c := by
  induction h with
  | edge h1 => intro he; exact .cons h1 (.edge he)
  | cons h1 _ ih => intro he; exact .cons h1 (ih he)

theorem alookup_isSome_iff {α : Type} (l : List (String × α)) (k : String) :
    (alookup l k).isSome = true ↔ k ∈ l.map Prod.fst := by
  induction l with
  | nil => simp [alookup]
  | cons kv rest ih =>
    obtain ⟨k0, v0⟩ := kv
    by_cases hk : k0 = k
    · subst hk
      simp [alookup]
    · simp only [alookup, if_neg hk, List.map_cons, List.mem_cons]
      rw [ih]
      constructor
      · intro h; exact Or.inr h
      · rintro (h | h)
        · exact absurd h.symm hk
        · exact h

theorem adj_subset_keys (pkgs : List (String × Package)) (n d : String)
    (h : d ∈ adj pkgs n) : d ∈ pkgs.map Prod.fst := by
  unfold adj at h
  cases hl : alookup pkgs n with
  | none => rw [hl] at h; exact absurd h (List.not_mem_nil d)
  | some p =>
    rw [hl] at h
    unfold presentDeps at h
    have h2 := List.of_mem_filter h
    exact (alookup_isSome_iff pkgs d).mp (by simpa using h2)

/-- The number of package names not yet visited. -/
def unvisitedCount (pkgs : List (String × Package)) (visited : List String) : Nat :=
  ((pkgs.map Prod.fst).filter (fun x => !visited.contains x)).length

theorem length_filter_mono {α : Type} (l : List α) (p q : α → Bool)
    (h : ∀ x, q x = true → p x = true) :
    (l.filter q).length ≤ (l.filter p).length := by
  induction l with
  | nil => simp
  | cons x xs ih =>
    cases hq : q x with
    | true =>
      rw [List.filter_cons_of_pos hq, List.filter_cons_of_pos (h x hq)]
      simpa using ih
    | false =>
      rw [List.filter_cons_of_neg (by simp [hq])]
      cases hp : p x with
      | true =>
        rw [List.filter_cons_of_pos hp]
        exact le_trans ih (by simp)
      | false =>
        rw [List.filter_cons_of_neg (by simp [hp])]
        exact ih

theorem length_filter_lt {α : Type} (l : List α) (p q : α → Bool)
    (h : ∀ x, q x = true → p x = true) (a : α) (ha : a ∈ l)
    (hpa : p a = true) (hqa : q a = false) :
    (l.filter q).length < (l.filter p).length := by
  induction l with
  | nil => exact absurd ha (List.not_mem_nil a)
  | cons x xs ih =>
    cases hq : q x with
    | true =>
      have hx : a ≠ x := by
        intro heq
        rw [heq, hq] at hqa
        exact Bool.noConfusion hqa
      have ha2 : a ∈ xs := by
        rcases List.mem_cons.mp ha with heq | h2
        · exact absurd heq hx
        · exact h2
      rw [List.filter_cons_of_pos hq, List.filter_cons_of_pos (h x hq)]
      simpa using ih ha2
    | false =>
      rw [List.filter_cons_of_neg (by simp [hq])]
      cases hp : p x with
      | true =>
        rw [List.filter_cons_of_pos hp]
        have hle : (xs.filter q).length ≤ (xs.filter p).length :=
          length_filter_mono xs p q h
        simp only [List.length_cons]
        omega
      | false =>
        have hx : a ≠ x := by
          intro heq
          rw [heq, hp] at hpa
          exact Bool.noConfusion hpa
        have ha2 : a ∈ xs := by
          rcases List.mem_cons.mp ha with heq | h2
          · exact absurd heq hx
          · exact h2
        rw [List.filter_cons_of_neg (by simp [hp])]
        exact ih ha2

theorem unvisitedCount_insert_lt (pkgs : List (String × Package)) (visited : List String)
    (n : String) (hnU : n ∈ pkgs.map Prod.fst) (hnv : visited.contains n = false) :
    unvisitedCount pkgs (n :: visited) < unvisitedCount pkgs visited := by
  refine length_filter_lt (pkgs.map Prod.fst) _ _ ?_ n hnU (by rw [hnv]; rfl) (by simp)
  intro x hx
  simp only [Bool.not_eq_true'] at hx ⊢
  have : (n :: visited).contains x = ((x == n) || visited.contains x) := rfl
  rw [this] at hx
  cases hv : visited.contains x
  · rfl
  · rw [hv] at hx
    simp at hx

theorem unvisitedCount_mono (pkgs : List (String × Package)) (v1 v2 : List String)
    (h : ∀ x, v1.contains x = true → v2.contains x = true) :
    unvisitedCount pkgs v2 ≤ unvisitedCount pkgs v1 := by
  refine length_filter_mono (pkgs.map Prod.fst) _ _ ?_
  intro x hx
  simp only [Bool.not_eq_true'] at hx ⊢
  cases hv : v1.contains x
  · rfl
  · rw [h x hv] at hx
    exact hx

/-- An order list is good when everything a listed name depends on appears
strictly earlier in the list. -/
def GoodOrder (g : String → List String) (order : List String) : Prop :=
  ∀ l1 n l2, order = l1 ++ n :: l2 → ∀ d ∈ g n, d ∈ l1

theorem goodOrder_nil (g : String → List String) : GoodOrder g [] := by
  intro l1 n l2 h d hd
  exfalso
  cases l1 <;> exact List.noConfusion h

theorem goodOrder_append {g : String → List String} {order : List String} {n : String}
    (hg : GoodOrder g order) (hdeps : ∀ d ∈ g n, d ∈ order) :
    GoodOrder g (order ++ [n]) := by
  intro l1 m l2 hsplit d hd
  rcases List.eq_nil_or_concat l2 with rfl | ⟨l2a, x, rfl⟩
  · have h2 := List.append_inj' hsplit (by rfl)
    obtain ⟨ho, hm⟩ := h2
    injection hm with hm
    subst hm
    rw [← ho]
    exact hdeps d hd
  · have hassoc : order ++ [n] = (l1 ++ m :: l2a) ++ [x] := by
      rw [hsplit]
      simp
    have h2 := List.append_inj' hassoc (by rfl)
    obtain ⟨ho, _⟩ := h2
    exact hg l1 m l2a ho d hd

/-- The invariant of the topological-sort visit: visited names are package
names; the visited set is exactly the output order plus the gray in-progress
set; the order has no duplicates, excludes gray names, and lists every name
after its dependencies. -/
structure DFSInv (pkgs : List (String × Package)) (G : List String) (s : VisitState) : Prop where
  vis_sub : ∀ x ∈ s.visited, x ∈ pkgs.map Prod.fst
  vis_iff : ∀ x, x ∈ s.visited ↔ (x ∈ s.order ∨ x ∈ G)
  nodup : s.order.Nodup
  gray_disj : ∀ a ∈ G, a ∉ s.order
  good : GoodOrder (adj pkgs) s.order

theorem visitL_zero (pkgs : List (String × Package)) (names : List String) (s : VisitState) :
    visitL pkgs 0 names s = s := rfl

theorem visitL_succ_nil (pkgs : List (String × Package)) (f : Nat) (s : VisitState) :
    visitL pkgs (f + 1) [] s = s := rfl

theorem visitL_succ_cons (pkgs : List (String × Package)) (f : Nat) (n : String)
    (rest : List String) (s : VisitState) :
    visitL pkgs (f + 1) (n :: rest) s =
      visitL pkgs (f + 1) rest (visitStep pkgs f s n) := rfl

theorem visitStep_visited (pkgs : List (String × Package)) (f : Nat) (s : VisitState)
    (n : String) (h : s.visited.contains n = true) : visitStep pkgs f s n = s := by
  unfold visitStep
  rw [h, if_pos rfl]

theorem visitStep_unvisited_some (pkgs : List (String × Package)) (f : Nat) (s : VisitState)
    (n : String) (p : Package) (h : s.visited.contains n = false)
    (hp : alookup pkgs n = some p) :
    visitStep pkgs f s n =
      ⟨(visitL pkgs f (adj pkgs n) ⟨n :: s.visited, s.order⟩).visited,
       (visitL pkgs f (adj pkgs n) ⟨n :: s.visited, s.order⟩).order ++ [n]⟩ := by
  unfold visitStep
  rw [h, if_neg Bool.false_ne_true, hp]

/-- The core invariant preservation of the visit recursion: under the
invariant, with every worklist name a package name reachable from every gray
name, and with fuel at least the number of unvisited package names, the
visit preserves the invariant, only appends to the order, grows the visited
set, visits every worklist name, and never increases the unvisited count. -/
theorem visitL_spec (pkgs : List (String × Package)) (hacyc : Acyclic (adj pkgs)) :
    ∀ (fuel : Nat) (names : List String) (G : List String) (s : VisitState),
      DFSInv pkgs G s →
      (∀ n ∈ names, n ∈ pkgs.map Prod.fst) →
      (∀ n ∈ names, ∀ a ∈ G, GPath (adj pkgs) a n) →
      unvisitedCount pkgs s.visited ≤ fuel →
      DFSInv pkgs G (visitL pkgs fuel names s) ∧
      (∃ d0, (visitL pkgs fuel names s).order = s.order ++ d0) ∧
      (∀ x ∈ s.visited, x ∈ (visitL pkgs fuel names s).visited) ∧
      (∀ n ∈ names, n ∈ (visitL pkgs fuel names s).visited) ∧
      unvisitedCount pkgs (visitL pkgs fuel names s).visited ≤
        unvisitedCount pkgs s.visited := by
  intro fuel
  induction fuel with
  | zero =>
    intro names G s hinv hnames hG hfuel
    rw [visitL_zero]
    have hall : ∀ x ∈ pkgs.map Prod.fst, x ∈ s.visited := by
      intro x hx
      by_contra hxv
      have hcon : s.visited.contains x = false := by
        cases hc : s.visited.contains x
        · rfl
        · exact absurd (List.elem_iff.mp hc) hxv
      have hlt := unvisitedCount_insert_lt pkgs s.visited x hx hcon
      omega
    exact ⟨hinv, ⟨[], by simp⟩, fun x h => h,
      fun n hn => hall n (hnames n hn), le_refl _⟩
  | succ f ihf =>
    intro names
    induction names with
    | nil =>
      intro G s hinv hnames hG hfuel
      rw [visitL_succ_nil]
      exact ⟨hinv, ⟨[], by simp⟩, fun x h => h,
        fun n h => absurd h (List.not_mem_nil n), le_refl _⟩
    | cons n rest ihn =>
      intro G s hinv hnames hG hfuel
      have hnU : n ∈ pkgs.map Prod.fst := hnames n (List.mem_cons_self n rest)
      rw [visitL_succ_cons]
      cases hnvis : s.visited.contains n with
      | true =>
        rw [visitStep_visited pkgs f s n hnvis]
        obtain ⟨h1, h2, h3, h4, h5⟩ := ihn G s hinv
          (fun m hm => hnames m (List.mem_cons_of_mem n hm))
          (fun m hm a ha => hG m (List.mem_cons_of_mem n hm) a ha) hfuel
        refine ⟨h1, h2, h3, ?_, h5⟩
        intro m hm
        rcases List.mem_cons.mp hm with rfl | hm2
        · exact h3 m (List.elem_iff.mp hnvis)
        · exact h4 m hm2
      | false =>
        have hnmem : n ∉ s.visited := by
          intro hx
          have hc : s.visited.contains n = true := List.elem_iff.mpr hx
          rw [hnvis] at hc
          exact Bool.noConfusion hc
        have hnG : n ∉ G := fun hx => hnmem ((hinv.vis_iff n).mpr (Or.inr hx))
        have hnorder : n ∉ s.order := fun hx => hnmem ((hinv.vis_iff n).mpr (Or.inl hx))
        have hlt := unvisitedCount_insert_lt pkgs s.visited n hnU hnvis
        obtain ⟨p, hp⟩ := Option.isSome_iff_exists.mp ((alookup_isSome_iff pkgs n).mpr hnU)
        rw [visitStep_unvisited_some pkgs f s n p hnvis hp]
        have hinv1 : DFSInv pkgs (n :: G) ⟨n :: s.visited, s.order⟩ := by
          refine ⟨?_, ?_, hinv.nodup, ?_, hinv.good⟩
          · intro x hx
            rcases List.mem_cons.mp hx with rfl | hx2
            · exact hnU
            · exact hinv.vis_sub x hx2
          · intro x
            constructor
            · intro hx
              rcases List.mem_cons.mp hx with rfl | hx2
              · exact Or.inr (List.mem_cons_self x G)
              · rcases (hinv.vis_iff x).mp hx2 with h | h
                · exact Or.inl h
                · exact Or.inr (List.mem_cons_of_mem n h)
            · intro hx
              rcases hx with h | h
              · exact List.mem_cons_of_mem n ((hinv.vis_iff x).mpr (Or.inl h))
              · rcases List.mem_cons.mp h with rfl | h2
                · exact List.mem_cons_self x s.visited
                · exact List.mem_cons_of_mem n ((hinv.vis_iff x).mpr (Or.inr h2))
          · intro a ha
            rcases List.mem_cons.mp ha with rfl | ha2
            · exact hnorder
            · exact hinv.gray_disj a ha2
        have hGd : ∀ d ∈ adj pkgs n, ∀ a ∈ n :: G, GPath (adj pkgs) a d := by
          intro d hd a ha
          rcases List.mem_cons.mp ha with rfl | ha2
          · exact GPath.edge hd
          · exact (hG n (List.mem_cons_self n rest) a ha2).snoc hd
        have hfuel1 : unvisitedCount pkgs (n :: s.visited) ≤ f := by omega
        obtain ⟨hinv2, hext2, hmono2, hdeps2, hcnt2⟩ :=
          ihf (adj pkgs n) (n :: G) ⟨n :: s.visited, s.order⟩ hinv1
            (fun d hd => adj_subset_keys pkgs n d hd) hGd hfuel1
        dsimp only at hext2 hmono2 hcnt2
        obtain ⟨d2, hd2⟩ := hext2
        have hnotin2 : n ∉ (visitL pkgs f (adj pkgs n) ⟨n :: s.visited, s.order⟩).order :=
          hinv2.gray_disj n (List.mem_cons_self n G)
        have hdepsord : ∀ d ∈ adj pkgs n,
            d ∈ (visitL pkgs f (adj pkgs n) ⟨n :: s.visited, s.order⟩).order := by
          intro d hd
          have hdv := hdeps2 d hd
          rcases (hinv2.vis_iff d).mp hdv with h | h
          · exact h
          · rcases List.mem_cons.mp h with rfl | h2
            · exact absurd (GPath.edge hd) (hacyc d)
            · exfalso
              exact hacyc d ((hG n (List.mem_cons_self n rest) d h2).snoc hd)
        have hinv3 : DFSInv pkgs G
            ⟨(visitL pkgs f (adj pkgs n) ⟨n :: s.visited, s.order⟩).visited,
             (visitL pkgs f (adj pkgs n) ⟨n :: s.visited, s.order⟩).order ++ [n]⟩ := by
          refine ⟨hinv2.vis_sub, ?_, ?_, ?_, ?_⟩
          · intro x
            rw [hinv2.vis_iff x]
            simp only [List.mem_append, List.mem_cons, List.not_mem_nil, or_false]
            tauto
          · rw [List.nodup_append]
            refine ⟨hinv2.nodup, List.nodup_singleton n, ?_⟩
            intro a ha hb
            rw [List.mem_singleton] at hb
            subst hb
            exact hnotin2 ha
          · intro a ha hx
            rcases List.mem_append.mp hx with h | h
            · exact hinv2.gray_disj a (List.mem_cons_of_mem n ha) h
            · rw [List.mem_singleton] at h
              subst h
              exact hnG ha
          · exact goodOrder_append hinv2.good hdepsord
        have hfuel3 : unvisitedCount pkgs
            (visitL pkgs f (adj pkgs n) ⟨n :: s.visited, s.order⟩).visited ≤ f + 1 := by
          omega
        obtain ⟨hinv4, hext4, hmono4, hrest4, hcnt4⟩ :=
          ihn G ⟨(visitL pkgs f (adj pkgs n) ⟨n :: s.visited, s.order⟩).visited,
                 (visitL pkgs f (adj pkgs n) ⟨n :: s.visited, s.order⟩).order ++ [n]⟩ hinv3
            (fun m hm => hnames m (List.mem_cons_of_mem n hm))
            (fun m hm a ha => hG m (List.mem_cons_of_mem n hm) a ha)
            hfuel3
        dsimp only at hext4 hmono4 hrest4 hcnt4
        obtain ⟨d4, hd4⟩ := hext4
        refine ⟨hinv4, ⟨d2 ++ [n] ++ d4, ?_⟩, ?_, ?_, ?_⟩
        · rw [hd4, hd2]
          simp
        · intro x hx
          exact hmono4 x (hmono2 x (List.mem_cons_of_mem n hx))
        · intro m hm
          rcases List.mem_cons.mp hm with rfl | hm2
          · exact hmono4 m (hmono2 m (List.mem_cons_self m s.visited))
          · exact hrest4 m hm2
        · omega

theorem filterMap_alookup_keys (pkgs : List (String × Package))
    (hnodup : (pkgs.map Prod.fst).Nodup) :
    (pkgs.map Prod.fst).filterMap (fun n => alookup pkgs n) = pkgs.map Prod.snd := by
  induction pkgs with
  | nil => rfl
  | cons kv rest ih =>
    obtain ⟨k, v⟩ := kv
    simp only [List.map_cons, List.nodup_cons] at hnodup ⊢
    obtain ⟨hknot, hrest⟩ := hnodup
    have hk : alookup ((k, v) :: rest) k = some v := by simp [alookup]
    rw [List.filterMap_cons_some hk]
    have hcong : (rest.map Prod.fst).filterMap (fun n => alookup ((k, v) :: rest) n) =
        (rest.map Prod.fst).filterMap (fun n => alookup rest n) := by
      refine List.filterMap_congr ?_
      intro x hx
      have hkx : k ≠ x := fun heq => hknot (heq ▸ hx)
      simp [alookup, hkx]
    rw [hcong, ih hrest]

theorem filterMap_eq_append_cons {α β : Type} (f : α → Option β) (l : List α)
    (l1 : List β) (p : β) (l2 : List β) (h : l.filterMap f = l1 ++ p :: l2) :
    ∃ m1 x m2, l = m1 ++ x :: m2 ∧ f x = some p ∧ m1.filterMap f = l1 := by
  induction l generalizing l1 with
  | nil =>
    exfalso
    rw [List.filterMap_nil] at h
    cases l1 <;> exact List.noConfusion h
  | cons x xs ih =>
    cases hf : f x with
    | none =>
      rw [List.filterMap_cons_none hf] at h
      obtain ⟨m1, y, m2, rfl, hfy, hm1⟩ := ih l1 h
      exact ⟨x :: m1, y, m2, rfl, hfy, by rw [List.filterMap_cons_none hf, hm1]⟩
    | some b =>
      rw [List.filterMap_cons_some hf] at h
      cases l1 with
      | nil =>
        injection h with h1 h2
        subst h1
        exact ⟨[], x, xs, rfl, hf, rfl⟩
      | cons c l1t =>
        injection h with h1 h2
        subst h1
        obtain ⟨m1, y, m2, rfl, hfy, hm1⟩ := ih l1t h2
        exact ⟨x :: m1, y, m2, rfl, hfy, by rw [List.filterMap_cons_some hf, hm1]⟩

/-- Claim C3: for every Resolution with pairwise-distinct names whose
dependency graph restricted to names present in the Resolution is acyclic,
GetResolutionOrder returns each resolved package exactly once (it is a
permutation of the resolved packages), and every returned package appears
after all the packages it depends on that are present in the Resolution. -/
theorem claim_C3_topological_order (res : Resolution)
    (hnodup : (res.packages.map Prod.fst).Nodup)
    (hacyc : Acyclic (adj res.packages)) :
    (GetResolutionOrder res).Perm (res.packages.map Prod.snd) ∧
      (∀ l1 p l2, GetResolutionOrder res = l1 ++ p :: l2 →
        ∀ d ∈ presentDeps res.packages p, ∀ q, alookup res.packages d = some q → q ∈ l1) := by
  have hinv0 : DFSInv res.packages [] ⟨[], []⟩ := by
    refine ⟨?_, ?_, List.nodup_nil, ?_, goodOrder_nil _⟩
    · intro x hx
      exact absurd hx (List.not_mem_nil x)
    · intro x
      simp
    · intro a ha
      exact absurd ha (List.not_mem_nil a)
  have hfuel : unvisitedCount res.packages
      (([] : List String)) ≤ res.packages.length + 1 := by
    unfold unvisitedCount
    have : ((res.packages.map Prod.fst).filter
        (fun x => !(([] : List String).contains x))).length ≤
        (res.packages.map Prod.fst).length :=
      List.length_filter_le _ _
    simp only [List.length_map] at this
    omega
  obtain ⟨hinvF, _, _, hallvis, _⟩ :=
    visitL_spec res.packages hacyc (res.packages.length + 1)
      (res.packages.map Prod.fst) [] ⟨[], []⟩ hinv0
      (fun n h => h)
      (fun n _ a ha => absurd ha (List.not_mem_nil a))
      hfuel
  have hmemiff : ∀ x,
      x ∈ (visitL res.packages (res.packages.length + 1)
        (res.packages.map Prod.fst) ⟨[], []⟩).order ↔
      x ∈ res.packages.map Prod.fst := by
    intro x
    constructor
    · intro h
      exact hinvF.vis_sub x ((hinvF.vis_iff x).mpr (Or.inl h))
    · intro h
      rcases (hinvF.vis_iff x).mp (hallvis x h) with h1 | h1
      · exact h1
      · exact absurd h1 (List.not_mem_nil x)
  have hperm : (visitL res.packages (res.packages.length + 1)
      (res.packages.map Prod.fst) ⟨[], []⟩).order.Perm (res.packages.map Prod.fst) :=
    (List.perm_ext_iff_of_nodup hinvF.nodup hnodup).mpr hmemiff
  constructor
  · show ((visitL res.packages (res.packages.length + 1)
        (res.packages.map Prod.fst) ⟨[], []⟩).order.filterMap
        (fun n => alookup res.packages n)).Perm (res.packages.map Prod.snd)
    refine (hperm.filterMap _).trans ?_
    rw [filterMap_alookup_keys res.packages hnodup]
  · intro l1 p l2 hsplit d hd q hq
    have hsplit2 : (visitL res.packages (res.packages.length + 1)
        (res.packages.map Prod.fst) ⟨[], []⟩).order.filterMap
        (fun n => alookup res.packages n) = l1 ++ p :: l2 := hsplit
    obtain ⟨m1, x, m2, hdecomp, hfx, hm1⟩ :=
      filterMap_eq_append_cons _ _ _ _ _ hsplit2
    have hdx : d ∈ adj res.packages x := by
      unfold adj
      rw [hfx]
      exact hd
    have hdm1 : d ∈ m1 := hinvF.good m1 x m2 hdecomp d hdx
    rw [← hm1]
    exact List.mem_filterMap.mpr ⟨d, hdm1, hq⟩

/-- The b package of the C3 witness (no dependencies). -/
def c3Pb : Package := ⟨"b", ⟨1, 0, 0⟩, []⟩

/-- The a package of the C3 witness (depends on b). -/
def c3Pa : Package := ⟨"a", ⟨1, 0, 0⟩, [("b", .range (some ⟨1, 0, 0⟩) none true false)]⟩

/-- The C3 witness resolution: a depends on b. -/
def c3Res : Resolution := ⟨[("b", c3Pb), ("a", c3Pa)]⟩

/-- Every edge of the witness graph goes from a to b. -/
theorem c3_edges (x y : String) (h : y ∈ adj c3Res.packages x) : x = "a" ∧ y = "b" := by
  unfold adj at h
  by_cases hb : "b" = x
  · subst hb
    rw [show alookup c3Res.packages "b" = some c3Pb from rfl] at h
    have h2 : y ∈ ([] : List String) := h
    exact absurd h2 (List.not_mem_nil y)
  · by_cases ha : "a" = x
    · subst ha
      rw [show alookup c3Res.packages "a" = some c3Pa from rfl] at h
      have h2 : y ∈ (["b"] : List String) := h
      refine ⟨rfl, ?_⟩
      rcases List.mem_cons.mp h2 with h1 | h1
      · exact h1
      · exact absurd h1 (List.not_mem_nil y)
    · have hlk : alookup c3Res.packages x = none := by
        show (if "b" = x then some c3Pb
          else if "a" = x then some c3Pa else none) = none
        rw [if_neg hb, if_neg ha]
      rw [hlk] at h
      exact absurd h (List.not_mem_nil y)

/-- The witness graph is acyclic. -/
theorem c3_acyclic : Acyclic (adj c3Res.packages) := by
  intro n hp
  cases hp with
  | edge hd =>
    obtain ⟨h1, h2⟩ := c3_edges n n hd
    rw [h1] at h2
    exact absurd h2 (by decide)
  | cons hd hp2 =>
    obtain ⟨h1, h2⟩ := c3_edges _ _ hd
    subst h1
    subst h2
    cases hp2 with
    | edge hd2 =>
      obtain ⟨h3, _⟩ := c3_edges _ _ hd2
      exact absurd h3 (by decide)
    | cons hd2 _ =>
      obtain ⟨h3, _⟩ := c3_edges _ _ hd2
      exact absurd h3 (by decide)

/-- Claim C3, witness: on the two-package resolution where a depends on b,
the returned order is exactly b then a, a permutation of the resolved
packages with b before a. -/
theorem claim_C3_witness :
    (c3Res.packages.map Prod.fst).Nodup ∧
      (GetResolutionOrder c3Res).Perm (c3Res.packages.map Prod.snd) ∧
      GetResolutionOrder c3Res = [c3Pb, c3Pa] := by
  refine ⟨by decide, ?_, rfl⟩
  exact (claim_C3_topological_order c3Res (by decide) c3_acyclic).1

/-! ## Claim C8: installPackage idempotence -/

/-- Extraction never removes an existing directory entry. -/
theorem extractTarGz_dirs_mono (destDir : String) (entries : List TarEntry) (fs : FS)
    (x : String) (hx : x ∈ fs.dirs) : x ∈ (extractTarGz destDir entries fs).dirs := by
  induction entries generalizing fs with
  | nil => exact hx
  | cons e rest ih =>
    cases e with
    | mk tf nm ct =>
      cases tf
      · exact ih _ (List.mem_cons_of_mem _ hx)
      · exact ih _ (List.mem_cons_of_mem _ hx)

/-- Claim C8: installing a resolved package whose (name, version) install
directory already exists is a no-op detected by the directory-existence
test: the call returns success with the filesystem and download record
unchanged; consequently a successful installPackage call is idempotent — a
second call for the same package is such a no-op. -/
theorem claim_C8_install_idempotent (ctx : RegistryCtx) (cfg : Config) (pkg : Package)
    (fs : FS) (downloads : List (String × String)) :
    (fs.dirs.contains (packagePath cfg pkg.name (verString pkg.version)) = true →
      installPackage ctx cfg pkg fs downloads = .ok (fs, downloads)) ∧
    (∀ fs2 downloads2,
      installPackage ctx cfg pkg fs downloads = .ok (fs2, downloads2) →
      installPackage ctx cfg pkg fs2 downloads2 = .ok (fs2, downloads2)) := by
  constructor
  · intro h
    simp only [installPackage]
    rw [h, if_pos rfl]
  · intro fs2 downloads2 hok
    simp only [installPackage] at hok
    by_cases h : fs.dirs.contains (packagePath cfg pkg.name (verString pkg.version)) = true
    · rw [h, if_pos rfl] at hok
      simp only [Except.ok.injEq, Prod.mk.injEq] at hok
      obtain ⟨rfl, rfl⟩ := hok
      simp only [installPackage]
      rw [h, if_pos rfl]
    · rw [Bool.not_eq_true] at h
      rw [h, if_neg Bool.false_ne_true] at hok
      cases hinfo : ctx.getPackageInfo pkg.name (verString pkg.version) with
      | error e => rw [hinfo] at hok; exact Except.noConfusion hok
      | ok u =>
        rw [hinfo] at hok
        cases hdl : ctx.downloadPackage pkg.name (verString pkg.version) with
        | error e => rw [hdl] at hok; exact Except.noConfusion hok
        | ok entries =>
          rw [hdl] at hok
          simp only [Except.ok.injEq, Prod.mk.injEq] at hok
          obtain ⟨hfs, hdls⟩ := hok
          have hmem : packagePath cfg pkg.name (verString pkg.version) ∈ fs2.dirs := by
            rw [← hfs]
            simp only [InstallFromArchive]
            exact extractTarGz_dirs_mono _ _ _ _ (List.mem_cons_self _ _)
          have hcon : fs2.dirs.contains (packagePath cfg pkg.name (verString pkg.version)) = true :=
            List.elem_iff.mpr hmem
          simp only [installPackage]
          rw [hcon, if_pos rfl]

/-- The registry oracle of the C8 witness. -/
def c8Ctx : RegistryCtx := ⟨fun _ _ => .ok (), fun _ _ => .ok []⟩

/-- The configuration of the C8 witness. -/
def c8Cfg : Config := ⟨"/home/u/.carrion/packages", "/home/u/.carrion/cache"⟩

/-- The package of the C8 witness. -/
def c8Pkg : Package := ⟨"foo", ⟨1, 0, 0⟩, []⟩

/-- A filesystem on which foo@1.0.0 is already installed. -/
def c8Fs : FS := ⟨["/home/u/.carrion/packages/foo/1.0.0"], []⟩

/-- Claim C8, witness: on a filesystem where the install directory of
foo@1.0.0 exists, installPackage returns success and changes nothing. -/
theorem claim_C8_witness :
    c8Fs.dirs.contains (packagePath c8Cfg c8Pkg.name (verString c8Pkg.version)) = true ∧
      installPackage c8Ctx c8Cfg c8Pkg c8Fs [] = .ok (c8Fs, []) :=
  ⟨rfl, (claim_C8_install_idempotent c8Ctx c8Cfg c8Pkg c8Fs []).1 rfl⟩

end Bifrost
